import Mathlib

/-!
Verification of the used-instrument valuation backend.

This file gives a shallow embedding, in Lean, of the pure core of the
backend (`app/openai_utils.py`, `app/schemas.py`, `app/rag/pipeline.py`,
`app/vlm/client.py`, and the two SSE event generators of `app/main.py`),
and proves the behavioural claims about it.

Embedding conventions:
* Python `str` values are `String` / `List Char`; machine integers are
  `Nat`/`Int`; Python floats are modelled as `Rat` (all constants the code
  manipulates are decimal literals, which `Rat` represents exactly).
* `json.loads` is modelled by `json_loads` below: a recursive-descent
  parser for RFC 8259 JSON (objects, arrays, strings with escapes,
  numbers with fraction/exponent, the literals) that insists the whole
  input is one value surrounded only by JSON whitespace.  Python-level
  divergences that no claim touches (surrogate-pair joining in `\u`
  escapes, the non-standard `NaN`/`Infinity` literals) are not modelled.
* Fallible Python code (raising `ValueError` / `json.JSONDecodeError` /
  pydantic `ValidationError`, all of the `ValueError` class) is modelled
  with `Except String` / `Option`.
-/

/-! ### JSON values -/

/-- A JSON value.  Numbers are exact rationals; an object is its member
list in source order (duplicate handling is done at lookup time, last
binding winning, matching the Python `dict` built by `json.loads`). -/
inductive Json where
  | null : Json
  | bool : Bool → Json
  | num : Rat → Json
  | str : String → Json
  | arr : List Json → Json
  | obj : List (String × Json) → Json
  deriving Repr, Inhabited

/-- JSON insignificant whitespace (RFC 8259): space, tab, LF, CR. -/
def jsonWs (c : Char) : Bool :=
  c = ' ' || c = '\t' || c = '\n' || c = '\r'

/-- Whitespace stripped by Python `str.strip` (the ASCII cases; the code
never feeds astral whitespace to `strip`). -/
def pyWs (c : Char) : Bool :=
  c = ' ' || c = '\t' || c = '\n' || c = '\r' || c = '\x0b' || c = '\x0c'

/-- Python `str.strip`: drop `pyWs` characters from both ends. -/
def pyStripL (l : List Char) : List Char :=
  ((l.dropWhile pyWs).reverse.dropWhile pyWs).reverse

/-- Decimal digit test. -/
def decDigit (c : Char) : Bool := '0' ≤ c && c ≤ '9'

/-! ### Serialisation (used to state claims about texts that contain a
JSON object; compact form, like `json.dumps(..., separators=(",", ":"))`). -/

/-- Most-significant-first decimal digits of `n`. -/
def digitsOf (n : Nat) : List Char :=
  if h : n < 10 then [Char.ofNat (48 + n)]
  else digitsOf (n / 10) ++ [Char.ofNat (48 + n % 10)]
termination_by n
decreasing_by omega

/-- Characters of an integer: optional sign then decimal digits. -/
def intChars (i : Int) : List Char :=
  if i < 0 then '-' :: digitsOf i.natAbs else digitsOf i.natAbs

/-- JSON string-body escaping: quote and backslash get a backslash; other
characters are emitted raw (serialised strings are restricted to
characters `≥ 0x20` by `Json.wf`). -/
def escBody : List Char → List Char
  | [] => []
  | c :: cs =>
    if c = '"' || c = '\\' then '\\' :: c :: escBody cs else c :: escBody cs

/-- A serialised JSON string literal. -/
def encStr (s : String) : List Char := '"' :: (escBody s.data ++ ['"'])

mutual

/-- Compact serialisation of a JSON value (integral numbers only; see
`Json.wf`). -/
def Json.enc : Json → List Char
  | .null => "null".data
  | .bool true => "true".data
  | .bool false => "false".data
  | .num q => intChars q.num
  | .str s => encStr s
  | .arr [] => ['[', ']']
  | .arr (x :: xs) => '[' :: (encElems x xs ++ [']'])
  | .obj [] => ['{', '}']
  | .obj (kv :: kvs) => '{' :: (encMembers kv kvs ++ ['}'])
termination_by j => sizeOf j

/-- Serialised elements of a nonempty array, comma separated. -/
def encElems : Json → List Json → List Char
  | x, [] => x.enc
  | x, y :: ys => x.enc ++ ',' :: encElems y ys
termination_by x xs => sizeOf x + sizeOf xs

/-- Serialised members of a nonempty object, comma separated. -/
def encMembers : (String × Json) → List (String × Json) → List Char
  | (k, v), [] => encStr k ++ ':' :: v.enc
  | (k, v), kv :: kvs => encStr k ++ ':' :: v.enc ++ ',' :: encMembers kv kvs
termination_by kv kvs => sizeOf kv + sizeOf kvs

end

/-- Characters representable inside a serialised string body: at or above
`0x20` (control characters would need `\u` escapes, and `json.loads` in
its default strict mode refuses them raw). -/
def tameStr (s : String) : Bool := s.data.all (fun c => 32 ≤ c.toNat)

/-- No duplicate keys. -/
def distinctKeys : List String → Bool
  | [] => true
  | k :: ks => !(ks.contains k) && distinctKeys ks

mutual

/-- Serialisable values: every number is integral, every string (and key)
avoids raw control characters, and object keys are duplicate-free (so
the Python `dict` equals the member list). -/
def Json.wf : Json → Bool
  | .null => true
  | .bool _ => true
  | .num q => q.den = 1
  | .str s => tameStr s
  | .arr xs => Json.wfElems xs
  | .obj kvs => Json.wfMembers kvs && distinctKeys (kvs.map Prod.fst)

/-- All elements serialisable. -/
def Json.wfElems : List Json → Bool
  | [] => true
  | x :: xs => x.wf && Json.wfElems xs

/-- All members serialisable. -/
def Json.wfMembers : List (String × Json) → Bool
  | [] => true
  | (k, v) :: kvs => tameStr k && v.wf && Json.wfMembers kvs

end

/-! ### Parsing (the embedding of `json.loads`) -/

/-- Skip JSON whitespace. -/
def skipSpace (cs : List Char) : List Char := cs.dropWhile jsonWs

/-- Value of a hexadecimal digit. -/
def hexDigitVal (c : Char) : Option Nat :=
  if '0' ≤ c && c ≤ '9' then some (c.toNat - 48)
  else if 'a' ≤ c && c ≤ 'f' then some (c.toNat - 87)
  else if 'A' ≤ c && c ≤ 'F' then some (c.toNat - 55)
  else none

/-- Decoded form of a single-character escape. -/
def escCode : Char → Option Char
  | '"' => some '"'
  | '\\' => some '\\'
  | '/' => some '/'
  | 'b' => some (Char.ofNat 8)
  | 'f' => some (Char.ofNat 12)
  | 'n' => some '\n'
  | 'r' => some '\r'
  | 't' => some '\t'
  | _ => none

/-- Parse a string body after the opening quote: returns the decoded
characters and the remainder after the closing quote.  Raw control
characters are refused (Python `json.loads` default `strict=True`);
`\uXXXX` decodes one code point (surrogate pairs are not joined). -/
def pStrBody : List Char → Option (List Char × List Char)
  | [] => none
  | c :: cs =>
    if c = '"' then some ([], cs)
    else if c = '\\' then
      match cs with
      | [] => none
      | e :: cs2 =>
        if e = 'u' then
          match cs2 with
          | a :: b :: c2 :: d :: cs3 =>
            match hexDigitVal a, hexDigitVal b, hexDigitVal c2, hexDigitVal d with
            | some x, some y, some z, some w =>
              (pStrBody cs3).map
                (fun p => (Char.ofNat (((x * 16 + y) * 16 + z) * 16 + w) :: p.1, p.2))
            | _, _, _, _ => none
          | _ => none
        else
          match escCode e with
          | none => none
          | some d => (pStrBody cs2).map (fun p => (d :: p.1, p.2))
    else if c.toNat < 32 then none
    else (pStrBody cs).map (fun p => (c :: p.1, p.2))

/-- Accumulated value of a digit run. -/
def digitsVal (ds : List Char) : Nat :=
  ds.foldl (fun a c => a * 10 + (c.toNat - 48)) 0

/-- Sign phase of the number grammar. -/
def splitSign : List Char → Bool × List Char
  | '-' :: r => (true, r)
  | cs => (false, cs)

/-- Integer-part phase: `0|[1-9][0-9]*` (a leading `0` takes only
itself, so `01` parses as `0` with `1` left over, as the `json` module's
regex matches). -/
def splitIntPart : List Char → List Char × List Char
  | [] => ([], [])
  | c :: r =>
    if c = '0' then (['0'], r)
    else ((c :: r).takeWhile decDigit, (c :: r).dropWhile decDigit)

/-- Fraction phase: `\.[0-9]+`, or nothing consumed. -/
def splitFrac : List Char → List Char × List Char
  | '.' :: r =>
    if (r.takeWhile decDigit).isEmpty then ([], '.' :: r)
    else (r.takeWhile decDigit, r.dropWhile decDigit)
  | cs => ([], cs)

/-- Exponent phase: `[eE][+-]?[0-9]+`, or nothing consumed. -/
def splitExp : List Char → Bool × List Char × List Char
  | cs =>
    match cs with
    | c :: r =>
      if c = 'e' || c = 'E' then
        match r with
        | s :: r2 =>
          if s = '+' || s = '-' then
            if (r2.takeWhile decDigit).isEmpty then (false, [], cs)
            else (s = '-', r2.takeWhile decDigit, r2.dropWhile decDigit)
          else
            if (r.takeWhile decDigit).isEmpty then (false, [], cs)
            else (false, r.takeWhile decDigit, r.dropWhile decDigit)
        | [] => (false, [], cs)
      else (false, [], cs)
    | [] => (false, [], cs)

/-- Parse a JSON number (grammar `-?(0|[1-9][0-9]*)(\.[0-9]+)?([eE][+-]?[0-9]+)?`,
as matched by the `json` module's scanner regex: a malformed fraction or
exponent is left unconsumed rather than failing). -/
def pNumber (cs : List Char) : Option (Rat × List Char) :=
  let (neg, cs1) := splitSign cs
  let (ids, cs2) := splitIntPart cs1
  if ids.isEmpty then none
  else
    let (fds, cs3) := splitFrac cs2
    let (eneg, eds, cs4) := splitExp cs3
    let mantissa : Rat := (digitsVal ids : Rat) + (digitsVal fds : Rat) / (10 : Rat) ^ fds.length
    let expo : Int := (if eneg then -1 else 1) * (digitsVal eds : Int)
    some ((if neg then -1 else 1) * mantissa * (10 : Rat) ^ expo, cs4)

/-- Literal-prefix check. -/
def afterLit : List Char → List Char → Option (List Char)
  | [], cs => some cs
  | _ :: _, [] => none
  | p :: ps, c :: cs => if p = c then afterLit ps cs else none

mutual

/-- Parse one JSON value, leading whitespace allowed.  `fuel` only bounds
nesting so that the recursion is structural; `json_loads` supplies more
fuel than any input can consume. -/
def pValue : Nat → List Char → Option (Json × List Char)
  | 0, _ => none
  | fuel + 1, cs =>
    match skipSpace cs with
    | [] => none
    | c :: r =>
      if c = '{' then
        match skipSpace r with
        | '}' :: r2 => some (.obj [], r2)
        | r2 => (pMembers fuel r2).map (fun p => (Json.obj p.1, p.2))
      else if c = '[' then
        match skipSpace r with
        | ']' :: r2 => some (.arr [], r2)
        | r2 => (pElems fuel r2).map (fun p => (Json.arr p.1, p.2))
      else if c = '"' then
        (pStrBody r).map (fun p => (Json.str (String.mk p.1), p.2))
      else if c = 't' then
        (afterLit ['r', 'u', 'e'] r).map (fun r2 => (Json.bool true, r2))
      else if c = 'f' then
        (afterLit ['a', 'l', 's', 'e'] r).map (fun r2 => (Json.bool false, r2))
      else if c = 'n' then
        (afterLit ['u', 'l', 'l'] r).map (fun r2 => (Json.null, r2))
      else
        (pNumber (c :: r)).map (fun p => (Json.num p.1, p.2))

/-- Parse the nonempty element list of an array, including the closing
bracket.  The caller has already consumed `[` and any whitespace. -/
def pElems : Nat → List Char → Option (List Json × List Char)
  | 0, _ => none
  | fuel + 1, cs =>
    match pValue fuel cs with
    | none => none
    | some (v, r) =>
      match skipSpace r with
      | ',' :: r2 =>
        (pElems fuel r2).map (fun p => (v :: p.1, p.2))
      | ']' :: r2 => some ([v], r2)
      | _ => none

/-- Parse the nonempty member list of an object, including the closing
brace.  The caller has already consumed `{` and any whitespace. -/
def pMembers : Nat → List Char → Option (List (String × Json) × List Char)
  | 0, _ => none
  | fuel + 1, cs =>
    match cs with
    | '"' :: r =>
      match pStrBody r with
      | none => none
      | some (k, r2) =>
        match skipSpace r2 with
        | ':' :: r3 =>
          match pValue fuel r3 with
          | none => none
          | some (v, r4) =>
            match skipSpace r4 with
            | ',' :: r5 =>
              (pMembers fuel (skipSpace r5)).map
                (fun p => ((String.mk k, v) :: p.1, p.2))
            | '}' :: r5 => some ([(String.mk k, v)], r5)
            | _ => none
        | _ => none
    | _ => none

end

/-- The embedding of `json.loads`: one JSON value, surrounded only by
JSON whitespace. -/
def json_loads (s : String) : Option Json :=
  match pValue (s.data.length + 1) s.data with
  | some (j, rest) => if skipSpace rest = [] then some j else none
  | none => none

/-! ### The brace scanner of `_find_json_object_span` -/

/-- Index of the first `{`, as `str.find` computes it. -/
def braceIdx : List Char → Option Nat
  | [] => none
  | c :: cs => if c = '{' then some 0 else (braceIdx cs).map (· + 1)

/-- The depth-tracked scan of `_find_json_object_span`, starting at index
`i` in state `(depth, inStr, esc)`: returns the exclusive end index when
`depth` first returns to zero on a structural `}`. -/
def scanBrace : Int → Bool → Bool → Nat → List Char → Option Nat
  | _, _, _, _, [] => none
  | depth, inStr, esc, i, c :: cs =>
    if inStr then
      if esc then scanBrace depth true false (i + 1) cs
      else if c = '\\' then scanBrace depth true true (i + 1) cs
      else if c = '"' then scanBrace depth false false (i + 1) cs
      else scanBrace depth true false (i + 1) cs
    else if c = '"' then scanBrace depth true false (i + 1) cs
    else if c = '{' then scanBrace (depth + 1) false false (i + 1) cs
    else if c = '}' then
      if depth - 1 = 0 then some (i + 1)
      else scanBrace (depth - 1) false false (i + 1) cs
    else scanBrace depth false false (i + 1) cs

/-- Embedding of `_find_json_object_span`. -/
def _find_json_object_span (cs : List Char) : Option (Nat × Nat) :=
  match braceIdx cs with
  | none => none
  | some start => (scanBrace 0 false false start (cs.drop start)).map (fun e => (start, e))

/-- Embedding of `extract_json_object`: strict whole-text parse first,
keeping only a dict result; otherwise the first-brace scan, then
`json.loads` on the located slice.  All failure modes (`ValueError`,
`json.JSONDecodeError`) surface as `.error`. -/
def extract_json_object (text : String) : Except String Json :=
  let stripped := String.mk (pyStripL text.data)
  if stripped.data.isEmpty then .error "Empty response"
  else
    match json_loads stripped with
    | some (Json.obj kvs) => .ok (Json.obj kvs)
    | _ =>
      match _find_json_object_span stripped.data with
      | none => .error "No JSON object found in response"
      | some (s, e) =>
        match json_loads (String.mk ((stripped.data.drop s).take (e - s))) with
        | some j => .ok j
        | none => .error "Expecting value"

/-! ### Capability-aware request builder (`app/openai_utils.py`) -/

/-- The `Settings` fields `build_responses_create_kwargs` reads (pydantic
`BaseSettings`; `None` is `none`, and a configured string may be empty,
which Python truthiness treats like `None`). -/
structure Settings where
  openai_max_output_tokens : Option Nat
  openai_temperature : Option Rat
  openai_reasoning_effort : Option String
  openai_reasoning_summary : Option String
  openai_text_verbosity : Option String
  openai_json_mode : Bool
  deriving Repr, DecidableEq

/-- Python string truthiness of an optional string: `none` for `None` or
the empty string. -/
def truthyStr : Option String → Option String
  | none => none
  | some s => if s = "" then none else some s

/-- List-level prefix test (pattern, text). -/
def headMatches : List Char → List Char → Bool
  | [], _ => true
  | _ :: _, [] => false
  | p :: ps, c :: cs => p = c && headMatches ps cs

/-- Python `str.casefold`, restricted to the ASCII lowering the code
relies on (`Char.toLower`). -/
def pyCasefold (s : String) : String := String.mk (s.data.map Char.toLower)

/-- Embedding of `_strip_inline_comment`: text before the first `#`,
stripped (`text.split("#", 1)[0].strip()`). -/
def _strip_inline_comment (text : String) : String :=
  String.mk (pyStripL (text.data.takeWhile (fun c => c ≠ '#')))

/-- Embedding of `_supports_reasoning`: the trimmed, casefolded model
name starts with `gpt-5` or `o`. -/
def _supports_reasoning (model : String) : Bool :=
  headMatches "gpt-5".data (pyCasefold (String.mk (pyStripL model.data))).data ||
    headMatches "o".data (pyCasefold (String.mk (pyStripL model.data))).data

/-- Embedding of `_supports_temperature` (the exact complement). -/
def _supports_temperature (model : String) : Bool := ! _supports_reasoning model

/-- The fixed allow-list for `reasoning.effort`. -/
def allowedReasoningEffort : List String :=
  ["none", "minimal", "low", "medium", "high", "xhigh"]

/-- The fixed allow-list for `reasoning.summary`. -/
def allowedReasoningSummary : List String := ["auto", "concise", "detailed"]

/-- The fixed allow-list for `text.verbosity`. -/
def allowedTextVerbosity : List String := ["low", "medium", "high"]

/-- Comment-stripped, casefolded form of a configured enumerated option. -/
def normalizeEnum (raw : String) : String := pyCasefold (_strip_inline_comment raw)

/-- The `reasoning` sub-dict of the built kwargs. -/
structure ReasoningKwargs where
  effort : Option String
  summary : Option String
  deriving Repr, DecidableEq

/-- The `text` sub-dict of the built kwargs (`format_json` stands for the
presence of the key `format` with value `{"type": "json_object"}`). -/
structure TextKwargs where
  verbosity : Option String
  format_json : Bool
  deriving Repr, DecidableEq

/-- The parameter set built by `build_responses_create_kwargs`; a `none`
field is an absent key. -/
structure ResponsesKwargs where
  max_output_tokens : Option Nat
  temperature : Option Rat
  reasoning : Option ReasoningKwargs
  text : Option TextKwargs
  deriving Repr, DecidableEq

/-- Embedding of `build_responses_create_kwargs` (the `settings`
argument stands for the process-wide `get_settings()`). -/
def build_responses_create_kwargs (model : String) (settings : Settings)
    (force_json : Bool) : Except String ResponsesKwargs := do
  let temperature :=
    if settings.openai_temperature.isSome && _supports_temperature model then
      settings.openai_temperature
    else none
  let reasoning ←
    if _supports_reasoning model then do
      let effort ←
        match truthyStr settings.openai_reasoning_effort with
        | none => pure none
        | some raw =>
          let e := normalizeEnum raw
          if allowedReasoningEffort.contains e then pure (some e)
          else throw "OPENAI_REASONING_EFFORT must be one of high, low, medium, minimal, none, xhigh"
      let summary ←
        match truthyStr settings.openai_reasoning_summary with
        | none => pure none
        | some raw =>
          let s := normalizeEnum raw
          if allowedReasoningSummary.contains s then pure (some s)
          else throw "OPENAI_REASONING_SUMMARY must be one of auto, concise, detailed"
      if effort.isSome || summary.isSome then
        pure (some { effort := effort, summary := summary })
      else pure none
    else pure none
  let verbosity ←
    match truthyStr settings.openai_text_verbosity with
    | none => pure none
    | some raw =>
      let v := normalizeEnum raw
      if allowedTextVerbosity.contains v then pure (some v)
      else throw "OPENAI_TEXT_VERBOSITY must be one of high, low, medium"
  let format_json := force_json && settings.openai_json_mode
  let text :=
    if verbosity.isSome || format_json then
      some { verbosity := verbosity, format_json := format_json }
    else none
  pure
    { max_output_tokens := settings.openai_max_output_tokens
      temperature := temperature
      reasoning := reasoning
      text := text }

/-! ### Schemas (`app/schemas.py`, pydantic models in lax mode) -/

/-- Python-`dict` lookup over a parsed member list: the last binding of a
key wins, as in the `dict` `json.loads` builds. -/
def dictGet (key : String) : List (String × Json) → Option Json
  | [] => none
  | (k, v) :: kvs => match dictGet key kvs with
    | some w => some w
    | none => if k = key then some v else none

/-- A JSON value coerced to a pydantic `str` field (pydantic v2 rejects
non-string input for `str`). -/
def asStr : Json → Option String
  | .str s => some s
  | _ => none

/-- A JSON value coerced to a pydantic `int` field: an integral number
(pydantic v2 lax mode also accepts numeric strings and integral floats;
the integral-number case is the one the pipeline exercises). -/
def asInt : Json → Option Int
  | .num q => if q.den = 1 then some q.num else none
  | _ => none

/-- A JSON value coerced to a pydantic `float` field: any number. -/
def asRat : Json → Option Rat
  | .num q => some q
  | _ => none

/-- A JSON value coerced to `list[str]`. -/
def asStrList : Json → Option (List String)
  | .arr xs => xs.mapM asStr
  | _ => none

/-- A JSON value coerced to `tuple[int, int]` (pydantic accepts a
two-element array; any other length fails). -/
def asIntPair : Json → Option (Int × Int)
  | .arr [a, b] => do
    let x ← asInt a
    let y ← asInt b
    pure (x, y)
  | _ => none

/-- Embedding of `InstrumentDescription` (all fields with their pydantic
defaults: text fields default to `""`, `year` to `None`, lists to `[]`). -/
structure InstrumentDescription where
  category : String
  brand : String
  model : String
  year : Option String
  condition : String
  materials : List String
  features : List String
  notes : String
  deriving Repr, DecidableEq

/-- Required `str` field with a default: absent key takes the default,
a present value must be a string. -/
def strFieldD (kvs : List (String × Json)) (key : String) (dflt : String) : Option String :=
  match dictGet key kvs with
  | none => some dflt
  | some v => asStr v

/-- Optional `str | None` field: absent key or explicit `null` is `none`. -/
def optStrField (kvs : List (String × Json)) (key : String) : Option (Option String) :=
  match dictGet key kvs with
  | none => some none
  | some .null => some none
  | some v => (asStr v).map some

/-- `list[str]` field defaulting to the empty list. -/
def strListFieldD (kvs : List (String × Json)) (key : String) : Option (List String) :=
  match dictGet key kvs with
  | none => some []
  | some v => asStrList v

/-- Embedding of `InstrumentDescription.model_validate` on a parsed JSON
value (non-objects are rejected; unknown keys are ignored). -/
def InstrumentDescription.validate (j : Json) : Option InstrumentDescription :=
  match j with
  | .obj kvs => do
    let category ← strFieldD kvs "category" ""
    let brand ← strFieldD kvs "brand" ""
    let model ← strFieldD kvs "model" ""
    let year ← optStrField kvs "year"
    let condition ← strFieldD kvs "condition" ""
    let materials ← strListFieldD kvs "materials"
    let features ← strListFieldD kvs "features"
    let notes ← strFieldD kvs "notes" ""
    pure
      { category := category, brand := brand, model := model, year := year,
        condition := condition, materials := materials, features := features,
        notes := notes }
  | _ => none

/-- Embedding of `InstrumentDescription.model_dump` (as the JSON value
`model_dump()` serialises to: `year=None` dumps as `null`, list fields
as arrays). -/
def InstrumentDescription.dump (d : InstrumentDescription) : Json :=
  .obj
    [("category", .str d.category),
     ("brand", .str d.brand),
     ("model", .str d.model),
     ("year", match d.year with | none => .null | some y => .str y),
     ("condition", .str d.condition),
     ("materials", .arr (d.materials.map .str)),
     ("features", .arr (d.features.map .str)),
     ("notes", .str d.notes)]

/-- Embedding of `ValuationResult` (`price_jpy` carries `ge=0`,
`confidence` carries `ge=0, le=1`; `range_jpy` is a plain
`tuple[int, int]` with no ordering constraint). -/
structure ValuationResult where
  price_jpy : Int
  range_jpy : Int × Int
  confidence : Rat
  rationale : String
  evidence : List String
  deriving Repr, DecidableEq

/-- Embedding of `ValuationResult.model_validate`: all five fields are
required; the `ge`/`le` bounds are checked; nothing constrains the
order of `range_jpy`. -/
def ValuationResult.validate (j : Json) : Option ValuationResult :=
  match j with
  | .obj kvs => do
    let price ← (dictGet "price_jpy" kvs).bind asInt
    if price < 0 then none
    else do
      let range ← (dictGet "range_jpy" kvs).bind asIntPair
      let confidence ← (dictGet "confidence" kvs).bind asRat
      if confidence < 0 || 1 < confidence then none
      else do
        let rationale ← (dictGet "rationale" kvs).bind asStr
        let evidence ← (dictGet "evidence" kvs).bind asStrList
        pure
          { price_jpy := price, range_jpy := range, confidence := confidence,
            rationale := rationale, evidence := evidence }
  | _ => none

/-! ### RAG pipeline pieces (`app/rag/pipeline.py`) -/

/-- Embedding of `RagPipeline.parse_estimate`: extract a JSON object from
the model text, then validate it (pydantic `ValidationError` is a
`ValueError`, so both failures surface alike). -/
def parse_estimate (output_text : String) : Except String ValuationResult :=
  match extract_json_object output_text with
  | .error e => .error e
  | .ok j =>
    match ValuationResult.validate j with
    | some v => .ok v
    | none => .error "validation error for ValuationResult"

/-- Embedding of `parse_description` in `app/vlm/client.py`. -/
def parse_description (output_text : String) : Except String InstrumentDescription :=
  match extract_json_object output_text with
  | .error e => .error e
  | .ok j =>
    match InstrumentDescription.validate j with
    | some d => .ok d
    | none => .error "validation error for InstrumentDescription"

/-- Python `", ".join`. -/
def commaJoin (l : List String) : String := String.intercalate ", " l

/-- Remainder of `text` after the first occurrence of `sep`
(`text.split(sep, 1)[1]`); `none` when `sep` does not occur. -/
def afterFirst (sep : List Char) : List Char → Option (List Char)
  | [] => if sep.isEmpty then some [] else none
  | c :: cs =>
    if headMatches sep (c :: cs) then some ((c :: cs).drop sep.length)
    else afterFirst sep cs

/-- The filter `_build_query` applies to a labeled part: the text after
the first `": "` is truthy (a part with no `": "` would raise in Python;
the parts built always contain it, and the embedding returns `false`). -/
def partKept (part : String) : Bool :=
  match afterFirst (':' :: ' ' :: []) part.data with
  | some r => !r.isEmpty
  | none => false

/-- Embedding of `RagPipeline._build_query`: eight labeled parts in fixed
order, keeping those whose value half is nonempty, joined by newlines. -/
def _build_query (d : InstrumentDescription) : String :=
  let parts : List String :=
    ["category: " ++ d.category,
     "brand: " ++ d.brand,
     "model: " ++ d.model,
     "year: " ++ (match d.year with | none => "" | some y => y),
     "condition: " ++ d.condition,
     "materials: " ++ commaJoin d.materials,
     "features: " ++ commaJoin d.features,
     "notes: " ++ d.notes]
  String.intercalate "\n" (parts.filter partKept)

/-- The query lines as §4.4 of the spec words them: one `label: value`
line per field whose rendered value is non-empty, in the fixed field
order.  (`_build_query` is proved to equal this.) -/
def specQueryLines (d : InstrumentDescription) : List String :=
  ([("category", d.category),
    ("brand", d.brand),
    ("model", d.model),
    ("year", match d.year with | none => "" | some y => y),
    ("condition", d.condition),
    ("materials", commaJoin d.materials),
    ("features", commaJoin d.features),
    ("notes", d.notes)].filter (fun kv => kv.2 ≠ "")).map
      (fun kv => kv.1 ++ ": " ++ kv.2)

/-! ### Base64 image data URLs (`app/vlm/client.py`) -/

/-- The base64 alphabet. -/
def b64Alphabet : List Char :=
  "ABCDEFGHIJKLMNOPQRSTUVWXYZabcdefghijklmnopqrstuvwxyz0123456789+/".data

/-- Character for a 6-bit group. -/
def b64Char (n : Nat) : Char := b64Alphabet.getD n '?'

/-- Position of a character in the alphabet (the decoding table). -/
def b64Val (c : Char) : Option Nat := go b64Alphabet
where
  /-- Scan the alphabet for `c`. -/
  go : List Char → Option Nat
    | [] => none
    | x :: xs => if x = c then some 0 else (go xs).map (· + 1)

/-- Standard base64 encoding of a byte list (bytes as `Nat < 256`),
three bytes to four characters, `=`-padded. -/
def b64EncodeChunks : List Nat → List Char
  | [] => []
  | [a] => [b64Char (a / 4), b64Char (a % 4 * 16), '=', '=']
  | [a, b] => [b64Char (a / 4), b64Char (a % 4 * 16 + b / 16), b64Char (b % 16 * 4), '=']
  | a :: b :: c :: rest =>
    b64Char (a / 4) :: b64Char (a % 4 * 16 + b / 16) :: b64Char (b % 16 * 4 + c / 64) ::
      b64Char (c % 64) :: b64EncodeChunks rest

/-- Embedding of `base64.b64encode(...).decode("utf-8")`. -/
def b64encode (image_bytes : List Nat) : String := String.mk (b64EncodeChunks image_bytes)

/-- Standard base64 decoding: the inverse reading of four-character
groups, honouring `=` padding on the final group. -/
def b64DecodeChunks : List Char → Option (List Nat)
  | [] => some []
  | a :: b :: c :: d :: rest =>
    match b64Val a, b64Val b with
    | some x, some y =>
      if c = '=' && d = '=' && rest.isEmpty then some [x * 4 + y / 16]
      else
        match b64Val c with
        | some z =>
          if d = '=' && rest.isEmpty then some [x * 4 + y / 16, y % 16 * 16 + z / 4]
          else
            match b64Val d, b64DecodeChunks rest with
            | some w, some tail =>
              some ((x * 4 + y / 16) :: (y % 16 * 16 + z / 4) :: (z % 4 * 64 + w) :: tail)
            | _, _ => none
        | none => none
    | _, _ => none
  | _ => none

/-- Base64 decoding of a payload string. -/
def b64decode (payload : String) : Option (List Nat) := b64DecodeChunks payload.data

/-- Embedding of `build_image_data_url`. -/
def build_image_data_url (image_bytes : List Nat) (mime_type : String) : String :=
  "data:" ++ mime_type ++ ";base64," ++ b64encode image_bytes

/-! ### The SSE event generators (`app/main.py`) -/

/-- Status half of a `step` event. -/
inductive StepStatus where
  | start : StepStatus
  | done : StepStatus
  deriving Repr, DecidableEq

/-- One server-sent event, by kind; payload detail beyond what the
ordering claims need (the `meta` dicts, the serialised result object)
is elided. -/
inductive Event where
  | log : String → Event
  | step : String → Nat → StepStatus → Event
  | result : String → Event
  | error : String → Event
  deriving Repr, DecidableEq

/-- A failure raised inside a stream's `try` block: a `ValueError`
carries its own message to the client, anything else is replaced by the
endpoint's generic message. -/
structure Fail where
  isValueError : Bool
  msg : String
  deriving Repr, DecidableEq

/-- The `error` event a failure produces under a generic fallback
message. -/
def failEvent (generic : String) (f : Fail) : Event :=
  .error (if f.isValueError then f.msg else generic)

/-- Metadata of a provider response, as consumed by the generators:
reasoning-summary lines (one `log` each) and optional usage counters
(one `log` when present). -/
structure RespMeta where
  reasoningLines : List String
  usage : Option (Nat × Nat × Nat)
  deriving Repr, DecidableEq

/-- Outcomes of the effectful calls inside `describe_stream`'s
`event_generator`: `await image.read()`, `create_vlm_client()` (the
data-URL construction that shares its step is pure), the provider call,
and `parse_description`. -/
structure DescribeOutcome where
  readResult : Except Fail Unit
  clientResult : Except Fail Unit
  requestResult : Except Fail RespMeta
  parseResult : Except Fail Unit
  deriving Repr

/-- The event sequence `describe_stream.event_generator` yields, by the
source order of `app/main.py` lines 145-198; the first failing call
short-circuits to the `except` clauses, which emit one `error` event. -/
def describe_event_stream (o : DescribeOutcome) : List Event :=
  [.log "vision.upload_received", .step "vision" 0 .start] ++
    match o.readResult with
    | .error f => [failEvent "VLM request failed" f]
    | .ok _ =>
      [.step "vision" 0 .done, .step "vision" 1 .start] ++
        match o.clientResult with
        | .error f => [failEvent "VLM request failed" f]
        | .ok _ =>
          [.step "vision" 1 .done, .log "vision.image_encoded", .log "vision.request_sent",
           .step "vision" 2 .start, .log "vision.model"] ++
            match o.requestResult with
            | .error f => [failEvent "VLM request failed" f]
            | .ok resp =>
              (resp.reasoningLines.map (fun _ => Event.log "vision.reasoning_summary")) ++
                (match resp.usage with
                 | some _ => [Event.log "vision.usage"]
                 | none => []) ++
                [.step "vision" 2 .done, .step "vision" 3 .start] ++
                match o.parseResult with
                | .error f => [failEvent "VLM request failed" f]
                | .ok _ =>
                  [.step "vision" 3 .done, .log "vision.response_parsed", .result "vision"]

/-- Outcomes of the effectful calls inside `estimate_stream`'s
`event_generator`: `pipeline.store.query`, the provider call, and
`parse_estimate` (`build_query` and `build_context` are pure). -/
structure EstimateOutcome where
  storeResult : Except Fail Nat
  requestResult : Except Fail RespMeta
  parseResult : Except Fail Unit
  deriving Repr

/-- The event sequence `estimate_stream.event_generator` yields, by the
source order of `app/main.py` lines 252-297 (note `parse_estimate` runs
inside step 3, before its `done`). -/
def estimate_event_stream (o : EstimateOutcome) : List Event :=
  [.log "rag.query_build", .step "rag" 0 .start, .step "rag" 0 .done,
   .log "rag.retrieve_start", .step "rag" 1 .start] ++
    match o.storeResult with
    | .error f => [failEvent "RAG request failed" f]
    | .ok _ =>
      [.step "rag" 1 .done, .log "rag.retrieve_done", .log "rag.context_build",
       .step "rag" 2 .start, .step "rag" 2 .done, .log "rag.request_sent",
       .step "rag" 3 .start, .log "rag.model"] ++
        match o.requestResult with
        | .error f => [failEvent "RAG request failed" f]
        | .ok resp =>
          (resp.reasoningLines.map (fun _ => Event.log "rag.reasoning_summary")) ++
            (match resp.usage with
             | some _ => [Event.log "rag.usage"]
             | none => []) ++
            match o.parseResult with
            | .error f => [failEvent "RAG request failed" f]
            | .ok _ => [.step "rag" 3 .done, .result "rag"]

/-- Result and error events terminate a stream. -/
def Event.isTerminal : Event → Bool
  | .result _ => true
  | .error _ => true
  | _ => false

/-- Step events, projected to index and status. -/
def stepsOf (es : List Event) : List (Nat × StepStatus) :=
  es.filterMap fun e =>
    match e with
    | .step _ i st => some (i, st)
    | _ => none

/-- The canonical step narration of a four-step phase: indices 0-3, each
`start` before its `done`. -/
def fullSteps : List (Nat × StepStatus) :=
  [(0, .start), (0, .done), (1, .start), (1, .done), (2, .start), (2, .done),
   (3, .start), (3, .done)]

/-- `pre` begins `l`. -/
def leadsList {α : Type} (pre l : List α) : Prop := ∃ t, pre ++ t = l

/-- The stream protocol properties claimed for a single-phase stream:
exactly one terminal event, last, a `result` exactly on success, and the
step events a prefix of the canonical four-step narration. -/
def StreamWellFormed (es : List Event) (success : Bool) : Prop :=
  (∃ init e, es = init ++ [e] ∧ (∀ x ∈ init, x.isTerminal = false) ∧
    e.isTerminal = true ∧
    (success = true → ∃ p, e = Event.result p) ∧
    (success = false → ∃ m, e = Event.error m)) ∧
  leadsList (stepsOf es) fullSteps

/-- Success of a describe-stream execution: every call returned. -/
def DescribeOutcome.ok (o : DescribeOutcome) : Bool :=
  o.readResult.isOk && o.clientResult.isOk && o.requestResult.isOk && o.parseResult.isOk

/-- Success of an estimate-stream execution. -/
def EstimateOutcome.ok (o : EstimateOutcome) : Bool :=
  o.storeResult.isOk && o.requestResult.isOk && o.parseResult.isOk

/-! ### Claim-support predicates -/

/-- A remainder that cannot extend a serialised number: empty, or headed
by something that is no digit, point, or exponent mark. -/
def numStop : List Char → Bool
  | [] => true
  | c :: _ => !(decDigit c || c = '.' || c = 'e' || c = 'E')

/-- The whole (stripped) text strictly parses as a JSON object — the
condition under which `extract_json_object` short-circuits. -/
def StrictObjParse (t : String) : Prop :=
  ∃ kvs, json_loads (String.mk (pyStripL t.data)) = some (Json.obj kvs)

/-! ## Theorems -/

/-! ### Decimal digit facts -/

theorem digitChar_spec (k : Nat) (h : k < 10) :
    (Char.ofNat (48 + k)).toNat - 48 = k ∧ decDigit (Char.ofNat (48 + k)) = true ∧
      (1 ≤ k → Char.ofNat (48 + k) ≠ '0') := by
  interval_cases k <;> refine ⟨by decide, by decide, fun h1 => ?_⟩ <;> first
    | exact absurd h1 (by decide)
    | decide

theorem digitsOf_unfold (n : Nat) :
    digitsOf n = (if n < 10 then [] else digitsOf (n / 10)) ++ [Char.ofNat (48 + n % 10)] := by
  rw [digitsOf]
  by_cases h : n < 10
  · simp [h, Nat.mod_eq_of_lt h]
  · simp [h]

theorem digitsOf_ne_nil (n : Nat) : digitsOf n ≠ [] := by
  rw [digitsOf_unfold]; simp

theorem digitsOf_all_digits (n : Nat) : ∀ c ∈ digitsOf n, decDigit c = true := by
  induction n using Nat.strongRecOn with
  | ind n ih =>
    rw [digitsOf_unfold]
    intro c hc
    rcases List.mem_append.mp hc with h | h
    · by_cases h10 : n < 10
      · simp [h10] at h
      · exact ih (n / 10) (by omega) c (by simpa [h10] using h)
    · rw [List.mem_singleton] at h
      subst h
      exact (digitChar_spec _ (Nat.mod_lt _ (by omega))).2.1

theorem digitsVal_digitsOf (n : Nat) : digitsVal (digitsOf n) = n := by
  induction n using Nat.strongRecOn with
  | ind n ih =>
    rw [digitsOf_unfold]
    by_cases h : n < 10
    · simp only [if_pos h, List.nil_append, digitsVal, List.foldl_cons, List.foldl_nil]
      rw [(digitChar_spec _ (Nat.mod_lt _ (by omega))).1]
      omega
    · simp only [if_neg h, digitsVal, List.foldl_append, List.foldl_cons, List.foldl_nil]
      have := ih (n / 10) (by omega)
      simp only [digitsVal] at this
      rw [this, (digitChar_spec _ (Nat.mod_lt _ (by omega))).1]
      omega

theorem digitsOf_head (n : Nat) :
    ∃ c t, digitsOf n = c :: t ∧ decDigit c = true ∧ (1 ≤ n → c ≠ '0') := by
  induction n using Nat.strongRecOn with
  | ind n ih =>
    by_cases h : n < 10
    · refine ⟨Char.ofNat (48 + n), [], ?_, (digitChar_spec n h).2.1, (digitChar_spec n h).2.2⟩
      rw [digitsOf]; simp [h]
    · obtain ⟨c, t, hct, hd, hz⟩ := ih (n / 10) (by omega)
      refine ⟨c, t ++ [Char.ofNat (48 + n % 10)], ?_, hd, fun _ => hz (by omega)⟩
      rw [digitsOf_unfold]
      simp [h, hct]

/-- A decimal digit is none of the structural / literal-leading characters
the parsers and the scanner branch on. -/
theorem decDigit_ne (c : Char) (h : decDigit c = true) :
    c ≠ '{' ∧ c ≠ '}' ∧ c ≠ '"' ∧ c ≠ '[' ∧ c ≠ ']' ∧ c ≠ ',' ∧ c ≠ ':' ∧
      c ≠ 't' ∧ c ≠ 'f' ∧ c ≠ 'n' ∧ c ≠ '-' ∧ c ≠ '+' ∧ c ≠ '.' ∧ c ≠ 'e' ∧ c ≠ 'E' ∧
      c ≠ '\\' ∧ jsonWs c = false := by
  have k : ∀ x : Char, decDigit x = false → c ≠ x := by
    intro x hx hc
    subst hc
    rw [h] at hx
    exact absurd hx (by decide)
  refine ⟨k _ (by decide), k _ (by decide), k _ (by decide), k _ (by decide), k _ (by decide),
    k _ (by decide), k _ (by decide), k _ (by decide), k _ (by decide), k _ (by decide),
    k _ (by decide), k _ (by decide), k _ (by decide), k _ (by decide), k _ (by decide),
    k _ (by decide), ?_⟩
  simp [jsonWs, k ' ' (by decide), k '\t' (by decide), k '\n' (by decide), k '\r' (by decide)]

/-! ### Equation lemmas for the serialiser (its mutual recursion is
compiled by well-founded recursion, so these do not hold by `rfl`). -/

theorem enc_null : Json.null.enc = ['n', 'u', 'l', 'l'] := by simp [Json.enc]

theorem enc_bool_true : (Json.bool true).enc = ['t', 'r', 'u', 'e'] := by simp [Json.enc]

theorem enc_bool_false : (Json.bool false).enc = ['f', 'a', 'l', 's', 'e'] := by simp [Json.enc]

theorem enc_num (q : Rat) : (Json.num q).enc = intChars q.num := by simp [Json.enc]

theorem enc_str_eq (s : String) : (Json.str s).enc = encStr s := by simp [Json.enc]

theorem enc_arr_nil : (Json.arr []).enc = ['[', ']'] := by simp [Json.enc]

theorem enc_arr_cons (x : Json) (xs : List Json) :
    (Json.arr (x :: xs)).enc = '[' :: (encElems x xs ++ [']']) := by simp [Json.enc]

theorem enc_obj_nil : (Json.obj []).enc = ['{', '}'] := by simp [Json.enc]

theorem enc_obj_cons (kv : String × Json) (kvs : List (String × Json)) :
    (Json.obj (kv :: kvs)).enc = '{' :: (encMembers kv kvs ++ ['}']) := by simp [Json.enc]

theorem encElems_one (x : Json) : encElems x [] = x.enc := by simp [encElems]

theorem encElems_cons (x y : Json) (ys : List Json) :
    encElems x (y :: ys) = x.enc ++ ',' :: encElems y ys := by simp [encElems]

theorem encMembers_one (k : String) (v : Json) :
    encMembers (k, v) [] = encStr k ++ ':' :: v.enc := by simp [encMembers]

theorem encMembers_cons (k : String) (v : Json) (kv : String × Json)
    (kvs : List (String × Json)) :
    encMembers (k, v) (kv :: kvs) = encStr k ++ ':' :: v.enc ++ ',' :: encMembers kv kvs := by
  simp [encMembers]

theorem scanBrace_idx (d : Int) (b e : Bool) {i j : Nat} (cs : List Char) (h : i = j) :
    scanBrace d b e i cs = scanBrace d b e j cs := by rw [h]

theorem scanBrace_step_open (d : Int) (i : Nat) (cs : List Char) :
    scanBrace d false false i ('{' :: cs) = scanBrace (d + 1) false false (i + 1) cs := by
  simp [scanBrace]

theorem scanBrace_step_close_done (d : Int) (i : Nat) (cs : List Char) (h : d - 1 = 0) :
    scanBrace d false false i ('}' :: cs) = some (i + 1) := by
  simp [scanBrace, h]

theorem scanBrace_step_close (d : Int) (i : Nat) (cs : List Char) (h : ¬ d - 1 = 0) :
    scanBrace d false false i ('}' :: cs) = scanBrace (d - 1) false false (i + 1) cs := by
  simp [scanBrace, h]

/-- Inside a string the scanner consumes an escaped body and its closing
quote without an early return, at any depth. -/
theorem scanBrace_escBody (l : List Char) : ∀ (d : Int) (i : Nat) (rest : List Char),
    scanBrace d true false i (escBody l ++ '"' :: rest)
      = scanBrace d false false (i + (escBody l).length + 1) rest := by
  induction l with
  | nil =>
    intro d i rest
    simp [escBody, scanBrace]
  | cons c cs ih =>
    intro d i rest
    by_cases hc : c = '"' ∨ c = '\\'
    · have he : escBody (c :: cs) = '\\' :: c :: escBody cs := by
        rcases hc with rfl | rfl <;> simp [escBody]
      rw [he, List.cons_append, List.cons_append]
      rw [show ∀ t, scanBrace d true false i ('\\' :: t) = scanBrace d true true (i + 1) t from
        fun t => by simp [scanBrace]]
      rw [show ∀ t, scanBrace d true true (i + 1) (c :: t)
            = scanBrace d true false (i + 1 + 1) t from fun t => by simp [scanBrace]]
      rw [ih]
      apply scanBrace_idx
      simp only [List.length_cons]
      omega
    · push_neg at hc
      have he : escBody (c :: cs) = c :: escBody cs := by
        simp [escBody, hc.1, hc.2]
      rw [he, List.cons_append]
      rw [show ∀ t, scanBrace d true false i (c :: t)
            = scanBrace d true false (i + 1) t from fun t => by simp [scanBrace, hc.1, hc.2]]
      rw [ih]
      apply scanBrace_idx
      simp only [List.length_cons]
      omega

/-- Outside a string, characters that are neither braces nor quotes pass
through the scanner with no state change and no early return. -/
theorem scanBrace_lit (l : List Char) (hl : ∀ c ∈ l, c ≠ '{' ∧ c ≠ '}' ∧ c ≠ '"') :
    ∀ (d : Int) (i : Nat) (rest : List Char),
      scanBrace d false false i (l ++ rest) = scanBrace d false false (i + l.length) rest := by
  induction l with
  | nil => intro d i rest; simp
  | cons c cs ih =>
    intro d i rest
    obtain ⟨h1, h2, h3⟩ := hl c (List.mem_cons_self c cs)
    rw [List.cons_append]
    rw [show ∀ t, scanBrace d false false i (c :: t)
          = scanBrace d false false (i + 1) t from fun t => by simp [scanBrace, h1, h2, h3]]
    rw [ih (fun x hx => hl x (List.mem_cons_of_mem c hx))]
    apply scanBrace_idx
    simp only [List.length_cons]
    omega

/-- A serialised string literal passes through the scanner unchanged, at
any depth. -/
theorem scanBrace_encStr (s : String) (d : Int) (i : Nat) (rest : List Char) :
    scanBrace d false false i (encStr s ++ rest)
      = scanBrace d false false (i + (encStr s).length) rest := by
  have he : encStr s ++ rest = '"' :: (escBody s.data ++ '"' :: rest) := by
    simp [encStr]
  rw [he]
  rw [show ∀ t, scanBrace d false false i ('"' :: t)
        = scanBrace d true false (i + 1) t from fun t => by simp [scanBrace]]
  rw [scanBrace_escBody]
  apply scanBrace_idx
  simp only [encStr, List.length_cons, List.length_append, List.length_singleton, List.length_nil]
  omega

/-- Characters of a serialised integer are digits or a sign. -/
theorem intChars_lit (n : Int) : ∀ c ∈ intChars n, c ≠ '{' ∧ c ≠ '}' ∧ c ≠ '"' := by
  intro c hc
  have hd : decDigit c = true ∨ c = '-' := by
    simp only [intChars] at hc
    by_cases h : n < 0
    · rw [if_pos h] at hc
      rcases List.mem_cons.mp hc with h | h
      · exact Or.inr h
      · exact Or.inl (digitsOf_all_digits _ c h)
    · rw [if_neg h] at hc
      exact Or.inl (digitsOf_all_digits _ c hc)
  rcases hd with h | h
  · obtain ⟨a, b, c, _⟩ := decDigit_ne _ h
    exact ⟨a, b, c⟩
  · subst h
    exact ⟨by decide, by decide, by decide⟩

mutual

/-- A serialised value passes through the scanner with no early return
while the depth is positive. -/
theorem scanBrace_enc : ∀ (j : Json) (d : Int) (i : Nat) (rest : List Char),
    1 ≤ d →
    scanBrace d false false i (j.enc ++ rest)
      = scanBrace d false false (i + j.enc.length) rest
  | .null, d, i, rest, _ => by
    rw [enc_null]
    exact scanBrace_lit _ (by decide) d i rest
  | .bool true, d, i, rest, _ => by
    rw [enc_bool_true]
    exact scanBrace_lit _ (by decide) d i rest
  | .bool false, d, i, rest, _ => by
    rw [enc_bool_false]
    exact scanBrace_lit _ (by decide) d i rest
  | .num q, d, i, rest, _ => by
    rw [enc_num]
    exact scanBrace_lit _ (intChars_lit q.num) d i rest
  | .str s, d, i, rest, _ => by
    rw [enc_str_eq]
    exact scanBrace_encStr s d i rest
  | .arr [], d, i, rest, _ => by
    rw [enc_arr_nil]
    exact scanBrace_lit _ (by decide) d i rest
  | .arr (x :: xs), d, i, rest, hd => by
    rw [enc_arr_cons]
    rw [List.cons_append, List.append_assoc, List.singleton_append]
    rw [show ∀ t, scanBrace d false false i ('[' :: t)
          = scanBrace d false false (i + 1) t from fun t => by simp [scanBrace]]
    rw [scanBrace_encElems x xs d (i + 1) (']' :: rest) hd]
    rw [show ∀ m t, scanBrace d false false m (']' :: t)
          = scanBrace d false false (m + 1) t from fun m t => by simp [scanBrace]]
    apply scanBrace_idx
    simp only [List.length_cons, List.length_append, List.length_singleton, List.length_nil]
    omega
  | .obj [], d, i, rest, hd => by
    rw [enc_obj_nil]
    rw [show (['{', '}'] : List Char) ++ rest = '{' :: '}' :: rest from rfl]
    rw [scanBrace_step_open]
    rw [scanBrace_step_close _ _ _ (by omega)]
    rw [show d + 1 - 1 = d from by omega]
    apply scanBrace_idx
    simp
  | .obj (kv :: kvs), d, i, rest, hd => by
    rw [enc_obj_cons]
    rw [List.cons_append, List.append_assoc, List.singleton_append]
    rw [scanBrace_step_open]
    rw [scanBrace_encMembers kv kvs (d + 1) (i + 1) ('}' :: rest) (by omega)]
    rw [scanBrace_step_close _ _ _ (by omega)]
    rw [show d + 1 - 1 = d from by omega]
    apply scanBrace_idx
    simp only [List.length_cons, List.length_append, List.length_singleton, List.length_nil]
    omega
  termination_by j _ _ _ _ => sizeOf j

/-- Serialised array elements pass through the scanner at positive depth. -/
theorem scanBrace_encElems : ∀ (x : Json) (xs : List Json) (d : Int) (i : Nat)
    (rest : List Char), 1 ≤ d →
    scanBrace d false false i (encElems x xs ++ rest)
      = scanBrace d false false (i + (encElems x xs).length) rest
  | x, [], d, i, rest, hd => by
    rw [encElems_one]
    exact scanBrace_enc x d i rest hd
  | x, y :: ys, d, i, rest, hd => by
    rw [encElems_cons, List.append_assoc, List.cons_append]
    rw [scanBrace_enc x d i (',' :: (encElems y ys ++ rest)) hd]
    rw [show ∀ m t, scanBrace d false false m (',' :: t)
          = scanBrace d false false (m + 1) t from fun m t => by simp [scanBrace]]
    rw [scanBrace_encElems y ys d _ rest hd]
    apply scanBrace_idx
    simp only [List.length_append, List.length_cons, List.length_nil]
    omega
  termination_by x xs _ _ _ _ => sizeOf x + sizeOf xs

/-- Serialised object members pass through the scanner at positive depth. -/
theorem scanBrace_encMembers : ∀ (kv : String × Json) (kvs : List (String × Json))
    (d : Int) (i : Nat) (rest : List Char), 1 ≤ d →
    scanBrace d false false i (encMembers kv kvs ++ rest)
      = scanBrace d false false (i + (encMembers kv kvs).length) rest
  | (k, v), [], d, i, rest, hd => by
    rw [encMembers_one, List.append_assoc, List.cons_append]
    rw [scanBrace_encStr k d i _]
    rw [show ∀ m t, scanBrace d false false m (':' :: t)
          = scanBrace d false false (m + 1) t from fun m t => by simp [scanBrace]]
    rw [scanBrace_enc v d _ rest hd]
    apply scanBrace_idx
    simp only [List.length_append, List.length_cons, List.length_nil]
    omega
  | (k, v), kv :: kvs, d, i, rest, hd => by
    rw [encMembers_cons, List.append_assoc, List.append_assoc, List.cons_append,
      List.cons_append]
    rw [scanBrace_encStr k d i _]
    rw [show ∀ m t, scanBrace d false false m (':' :: t)
          = scanBrace d false false (m + 1) t from fun m t => by simp [scanBrace]]
    rw [scanBrace_enc v d _ _ hd]
    rw [show ∀ m t, scanBrace d false false m (',' :: t)
          = scanBrace d false false (m + 1) t from fun m t => by simp [scanBrace]]
    rw [scanBrace_encMembers kv kvs d _ rest hd]
    apply scanBrace_idx
    simp only [List.length_append, List.length_cons, List.length_nil]
    omega
  termination_by kv kvs _ _ _ _ => sizeOf kv + sizeOf kvs

end

/-- Scanning a serialised object from depth `0` returns exactly at its
final brace. -/
theorem scanBrace_obj (kvs : List (String × Json)) (i : Nat) (rest : List Char) :
    scanBrace 0 false false i (Json.enc (.obj kvs) ++ rest)
      = some (i + (Json.enc (.obj kvs)).length) := by
  cases kvs with
  | nil =>
    rw [enc_obj_nil]
    rw [show (['{', '}'] : List Char) ++ rest = '{' :: '}' :: rest from rfl]
    rw [scanBrace_step_open]
    rw [scanBrace_step_close_done _ _ _ (by omega)]
    simp
  | cons kv kvs =>
    rw [enc_obj_cons]
    rw [List.cons_append, List.append_assoc, List.singleton_append]
    rw [scanBrace_step_open]
    rw [scanBrace_encMembers kv kvs (0 + 1) (i + 1) ('}' :: rest) (by omega)]
    rw [scanBrace_step_close_done _ _ _ (by omega)]
    simp only [List.length_cons, List.length_append, List.length_singleton, List.length_nil]
    congr 1
    omega

/-! ### Parser inversion lemmas -/

theorem strMk_data (s : String) : String.mk s.data = s := rfl

theorem skipSpace_cons (c : Char) (t : List Char) (hc : jsonWs c = false) :
    skipSpace (c :: t) = c :: t := by
  simp [skipSpace, List.dropWhile, hc]

theorem pValue_step (f : Nat) (cs : List Char) :
    pValue (f + 1) cs
      = (match skipSpace cs with
         | [] => none
         | c :: r =>
           if c = '{' then
             match skipSpace r with
             | '}' :: r2 => some (.obj [], r2)
             | r2 => (pMembers f r2).map (fun p => (Json.obj p.1, p.2))
           else if c = '[' then
             match skipSpace r with
             | ']' :: r2 => some (.arr [], r2)
             | r2 => (pElems f r2).map (fun p => (Json.arr p.1, p.2))
           else if c = '"' then
             (pStrBody r).map (fun p => (Json.str (String.mk p.1), p.2))
           else if c = 't' then
             (afterLit ['r', 'u', 'e'] r).map (fun r2 => (Json.bool true, r2))
           else if c = 'f' then
             (afterLit ['a', 'l', 's', 'e'] r).map (fun r2 => (Json.bool false, r2))
           else if c = 'n' then
             (afterLit ['u', 'l', 'l'] r).map (fun r2 => (Json.null, r2))
           else
             (pNumber (c :: r)).map (fun p => (Json.num p.1, p.2))) := rfl

theorem pElems_step (f : Nat) (cs : List Char) :
    pElems (f + 1) cs
      = (match pValue f cs with
         | none => none
         | some (v, r) =>
           match skipSpace r with
           | ',' :: r2 => (pElems f r2).map (fun p => (v :: p.1, p.2))
           | ']' :: r2 => some ([v], r2)
           | _ => none) := rfl

theorem pMembers_step (f : Nat) (cs : List Char) :
    pMembers (f + 1) cs
      = (match cs with
         | '"' :: r =>
           match pStrBody r with
           | none => none
           | some (k, r2) =>
             match skipSpace r2 with
             | ':' :: r3 =>
               match pValue f r3 with
               | none => none
               | some (v, r4) =>
                 match skipSpace r4 with
                 | ',' :: r5 =>
                   (pMembers f (skipSpace r5)).map (fun p => ((String.mk k, v) :: p.1, p.2))
                 | '}' :: r5 => some ([(String.mk k, v)], r5)
                 | _ => none
             | _ => none
         | _ => none) := rfl

/-! ### Equation lemmas for `Json.wf` -/

theorem wf_num (q : Rat) : (Json.num q).wf = decide (q.den = 1) := by simp [Json.wf]

theorem wf_str (s : String) : (Json.str s).wf = tameStr s := by simp [Json.wf]

theorem wf_arr (xs : List Json) : (Json.arr xs).wf = Json.wfElems xs := by simp [Json.wf]

theorem wf_obj (kvs : List (String × Json)) :
    (Json.obj kvs).wf = (Json.wfMembers kvs && distinctKeys (kvs.map Prod.fst)) := by
  simp [Json.wf]

theorem wfElems_cons (x : Json) (xs : List Json) :
    Json.wfElems (x :: xs) = (x.wf && Json.wfElems xs) := by simp [Json.wfElems]

theorem wfMembers_cons (k : String) (v : Json) (kvs : List (String × Json)) :
    Json.wfMembers ((k, v) :: kvs) = (tameStr k && v.wf && Json.wfMembers kvs) := by
  simp [Json.wfMembers]

/-! ### String-body round-trip -/

theorem pStrBody_quote (cs : List Char) : pStrBody ('"' :: cs) = some ([], cs) := by
  rw [pStrBody.eq_def]
  simp

theorem pStrBody_esc (e d : Char) (cs : List Char) (he : e ≠ 'u')
    (hd : escCode e = some d) :
    pStrBody ('\\' :: e :: cs) = (pStrBody cs).map (fun p => (d :: p.1, p.2)) := by
  rw [pStrBody.eq_def]
  simp [he, hd]

theorem pStrBody_plain (c : Char) (cs : List Char) (h1 : c ≠ '"') (h2 : c ≠ '\\')
    (h3 : 32 ≤ c.toNat) :
    pStrBody (c :: cs) = (pStrBody cs).map (fun p => (c :: p.1, p.2)) := by
  rw [pStrBody.eq_def]
  simp [h1, h2, Nat.not_lt.mpr h3]

theorem pStrBody_escBody (l : List Char) (hl : ∀ c ∈ l, 32 ≤ c.toNat) :
    ∀ rest : List Char, pStrBody (escBody l ++ '"' :: rest) = some (l, rest) := by
  induction l with
  | nil =>
    intro rest
    have he : escBody [] ++ '"' :: rest = '"' :: rest := rfl
    rw [he, pStrBody_quote]
  | cons c t ih =>
    have iht := ih (fun x hx => hl x (List.mem_cons_of_mem _ hx))
    intro rest
    by_cases hc : c = '"' ∨ c = '\\'
    · have he : escBody (c :: t) = '\\' :: c :: escBody t := by
        rcases hc with rfl | rfl <;> simp [escBody]
      rw [he, List.cons_append, List.cons_append]
      rw [pStrBody_esc c c _ (by rcases hc with rfl | rfl <;> decide)
        (by rcases hc with rfl | rfl <;> simp [escCode])]
      rw [iht]
      rfl
    · push_neg at hc
      have h32 : 32 ≤ c.toNat := hl c (List.mem_cons_self c t)
      have he : escBody (c :: t) = c :: escBody t := by simp [escBody, hc.1, hc.2]
      rw [he, List.cons_append, pStrBody_plain c _ hc.1 hc.2 h32, iht]
      rfl

/-! ### Number round-trip -/

theorem numStop_not_digit (cs : List Char) (h : numStop cs = true) :
    cs.takeWhile decDigit = [] ∧ cs.dropWhile decDigit = cs := by
  cases cs with
  | nil => simp
  | cons c t =>
    simp only [numStop, Bool.not_eq_true', Bool.or_eq_false_iff,
      decide_eq_false_iff_not] at h
    simp [List.takeWhile_cons, List.dropWhile_cons, h.1.1.1]

theorem digitRun (ds : List Char) (hds : ∀ c ∈ ds, decDigit c = true)
    (rest : List Char) (hr : rest.takeWhile decDigit = [] ∧ rest.dropWhile decDigit = rest) :
    (ds ++ rest).takeWhile decDigit = ds ∧ (ds ++ rest).dropWhile decDigit = rest := by
  induction ds with
  | nil => simpa using hr
  | cons c t ih =>
    have h1 := hds c (List.mem_cons_self c t)
    have ih2 := ih (fun x hx => hds x (List.mem_cons_of_mem _ hx))
    simp [List.takeWhile_cons, List.dropWhile_cons, h1, ih2.1, ih2.2]

theorem numStop_head (c : Char) (t : List Char) (h : numStop (c :: t) = true) :
    decDigit c = false ∧ c ≠ '.' ∧ c ≠ 'e' ∧ c ≠ 'E' := by
  simp only [numStop, Bool.not_eq_true', Bool.or_eq_false_iff,
    decide_eq_false_iff_not] at h
  exact ⟨h.1.1.1, h.1.1.2, h.1.2, h.2⟩


/-! ### Number round-trip -/

theorem splitSign_minus (r : List Char) : splitSign ('-' :: r) = (true, r) := rfl

theorem splitSign_pos (c : Char) (r : List Char) (h : c ≠ '-') :
    splitSign (c :: r) = (false, c :: r) := by
  rw [splitSign.eq_def]
  simp [h]

theorem splitIntPart_zero (r : List Char) : splitIntPart ('0' :: r) = (['0'], r) := by
  simp [splitIntPart]

theorem splitIntPart_digit (c : Char) (r : List Char) (h0 : c ≠ '0') :
    splitIntPart (c :: r) = ((c :: r).takeWhile decDigit, (c :: r).dropWhile decDigit) := by
  simp [splitIntPart, h0]

theorem splitFrac_stop (cs : List Char) (h : numStop cs = true) : splitFrac cs = ([], cs) := by
  cases cs with
  | nil => rfl
  | cons c t =>
    rw [splitFrac.eq_def]
    simp [(numStop_head c t h).2.1]

theorem splitExp_stop (cs : List Char) (h : numStop cs = true) :
    splitExp cs = (false, [], cs) := by
  cases cs with
  | nil => rfl
  | cons c t =>
    obtain ⟨-, -, he, hE⟩ := numStop_head c t h
    rw [splitExp.eq_def]
    simp [he, hE]

theorem digitsOf_zero : digitsOf 0 = ['0'] := by
  rw [digitsOf_unfold]
  norm_num

theorem pNumber_digitsOf (m : Nat) (rest : List Char) (hr : numStop rest = true)
    (neg : Bool) (pre : List Char) (hpre : splitSign pre = (neg, digitsOf m ++ rest)) :
    pNumber pre = some ((if neg then -1 else 1) * (m : Rat), rest) := by
  have hstop := numStop_not_digit rest hr
  have hint : splitIntPart (digitsOf m ++ rest) = (digitsOf m, rest) := by
    by_cases hm : m = 0
    · subst hm
      rw [digitsOf_zero]
      exact splitIntPart_zero rest
    · obtain ⟨c0, t0, hct, hd0, hz0⟩ := digitsOf_head m
      have hz := hz0 (by omega)
      have hrun := digitRun (digitsOf m) (digitsOf_all_digits m) rest hstop
      rw [hct, List.cons_append]
      rw [splitIntPart_digit c0 (t0 ++ rest) hz]
      rw [← List.cons_append, ← hct, hrun.1, hrun.2]
  simp only [pNumber, hpre, hint, splitFrac_stop rest hr, splitExp_stop rest hr]
  rw [if_neg (by simp [List.isEmpty_iff, digitsOf_ne_nil])]
  have hval : digitsVal (digitsOf m) = m := digitsVal_digitsOf m
  have hnil : digitsVal [] = 0 := rfl
  simp [hnil, hval]

theorem pNumber_intChars (n : Int) (rest : List Char) (hr : numStop rest = true) :
    pNumber (intChars n ++ rest) = some ((n : Rat), rest) := by
  by_cases hn : n < 0
  · rw [intChars, if_pos hn, List.cons_append]
    rw [pNumber_digitsOf n.natAbs rest hr true _ (splitSign_minus _)]
    have h1 : ((n.natAbs : ℤ)) = -n := by omega
    have hcast : ((n.natAbs : ℚ)) = -(n : ℚ) := by
      have h2 : ((n.natAbs : ℤ) : ℚ) = ((-n : ℤ) : ℚ) := by rw [h1]
      push_cast at h2
      rw [Int.cast_natAbs, Int.cast_abs]
      exact h2
    rw [hcast]
    norm_num
  · rw [intChars, if_neg hn]
    obtain ⟨c0, t0, hct, hd0, -⟩ := digitsOf_head n.natAbs
    have hminus : c0 ≠ '-' := (decDigit_ne c0 hd0).2.2.2.2.2.2.2.2.2.2.1
    have hsgn : splitSign (digitsOf n.natAbs ++ rest) = (false, digitsOf n.natAbs ++ rest) := by
      rw [hct, List.cons_append, splitSign_pos c0 _ hminus]
    rw [pNumber_digitsOf n.natAbs rest hr false _ hsgn]
    have h1 : ((n.natAbs : ℤ)) = n := by omega
    have hcast : ((n.natAbs : ℚ)) = (n : ℚ) := by
      have h2 : ((n.natAbs : ℤ) : ℚ) = ((n : ℤ) : ℚ) := by rw [h1]
      push_cast at h2
      rw [Int.cast_natAbs, Int.cast_abs]
      exact h2
    rw [hcast]
    norm_num

/-! ### Heads of serialised values -/

theorem enc_head (j : Json) :
    ∃ c t, j.enc = c :: t ∧ jsonWs c = false ∧ c ≠ ']' ∧ c ≠ '}' := by
  cases j with
  | null => exact ⟨'n', _, enc_null, by decide, by decide, by decide⟩
  | bool b =>
    cases b with
    | true => exact ⟨'t', _, enc_bool_true, by decide, by decide, by decide⟩
    | false => exact ⟨'f', _, enc_bool_false, by decide, by decide, by decide⟩
  | num q =>
    by_cases h : q.num < 0
    · refine ⟨'-', digitsOf q.num.natAbs, ?_, by decide, by decide, by decide⟩
      rw [enc_num, intChars, if_pos h]
    · obtain ⟨c, t, hct, hd, -⟩ := digitsOf_head q.num.natAbs
      obtain ⟨-, hbc, -, -, hbk, -⟩ := decDigit_ne c hd
      have hws := (decDigit_ne c hd).2.2.2.2.2.2.2.2.2.2.2.2.2.2.2.2
      refine ⟨c, t, ?_, hws, hbk, hbc⟩
      rw [enc_num, intChars, if_neg h, hct]
  | str s =>
    refine ⟨'"', escBody s.data ++ ['"'], ?_, by decide, by decide, by decide⟩
    rw [enc_str_eq, encStr]
  | arr xs =>
    cases xs with
    | nil => exact ⟨'[', [']'], enc_arr_nil, by decide, by decide, by decide⟩
    | cons x xs =>
      exact ⟨'[', encElems x xs ++ [']'], enc_arr_cons x xs, by decide, by decide, by decide⟩
  | obj kvs =>
    cases kvs with
    | nil => exact ⟨'{', ['}'], enc_obj_nil, by decide, by decide, by decide⟩
    | cons kv kvs =>
      exact ⟨'{', encMembers kv kvs ++ ['}'], enc_obj_cons kv kvs, by decide, by decide,
        by decide⟩

theorem enc_len_pos (j : Json) : 1 ≤ j.enc.length := by
  obtain ⟨c, t, hct, -⟩ := enc_head j
  rw [hct]
  simp

theorem encElems_head (x : Json) (xs : List Json) :
    ∃ c t, encElems x xs = c :: t ∧ jsonWs c = false ∧ c ≠ ']' ∧ c ≠ '}' := by
  obtain ⟨c, t, hct, hws, h1, h2⟩ := enc_head x
  cases xs with
  | nil => exact ⟨c, t, by rw [encElems_one, hct], hws, h1, h2⟩
  | cons y ys =>
    refine ⟨c, t ++ ',' :: encElems y ys, ?_, hws, h1, h2⟩
    rw [encElems_cons, hct, List.cons_append]

theorem encMembers_head (kv : String × Json) (kvs : List (String × Json)) :
    ∃ t, encMembers kv kvs = '"' :: t := by
  obtain ⟨k, v⟩ := kv
  cases kvs with
  | nil =>
    refine ⟨escBody k.data ++ ['"'] ++ ':' :: v.enc, ?_⟩
    rw [encMembers_one, encStr, List.cons_append]
  | cons kv2 kvs =>
    refine ⟨escBody k.data ++ ['"'] ++ ':' :: v.enc ++ ',' :: encMembers kv2 kvs, ?_⟩
    rw [encMembers_cons, encStr]
    simp

/-! ### Reduction of `pValue` branches -/

theorem pValue_atom (f : Nat) (c : Char) (r : List Char) (hws : jsonWs c = false)
    (h1 : c ≠ '{') (h2 : c ≠ '[') (h3 : c ≠ '"') (h4 : c ≠ 't') (h5 : c ≠ 'f')
    (h6 : c ≠ 'n') :
    pValue (f + 1) (c :: r) = (pNumber (c :: r)).map (fun p => (Json.num p.1, p.2)) := by
  rw [pValue_step, skipSpace_cons c r hws]
  simp [h1, h2, h3, h4, h5, h6]

theorem pValue_strlit (f : Nat) (r : List Char) :
    pValue (f + 1) ('"' :: r) = (pStrBody r).map (fun p => (Json.str (String.mk p.1), p.2)) := by
  rw [pValue_step, skipSpace_cons '"' r (by decide)]
  simp

theorem pValue_obj_go (f : Nat) (cs : List Char) (c0 : Char) (t : List Char)
    (hss : skipSpace cs = c0 :: t) (hc : c0 ≠ '}') :
    pValue (f + 1) ('{' :: cs) = (pMembers f (c0 :: t)).map (fun p => (Json.obj p.1, p.2)) := by
  rw [pValue_step, skipSpace_cons '{' cs (by decide)]
  simp only [if_pos rfl, hss]
  simp [hc]

theorem pValue_arr_go (f : Nat) (cs : List Char) (c0 : Char) (t : List Char)
    (hss : skipSpace cs = c0 :: t) (hc : c0 ≠ ']') :
    pValue (f + 1) ('[' :: cs) = (pElems f (c0 :: t)).map (fun p => (Json.arr p.1, p.2)) := by
  rw [pValue_step, skipSpace_cons '[' cs (by decide)]
  simp only [hss]
  simp [hc]

theorem pValue_obj_empty (f : Nat) (cs r2 : List Char) (hss : skipSpace cs = '}' :: r2) :
    pValue (f + 1) ('{' :: cs) = some (.obj [], r2) := by
  rw [pValue_step, skipSpace_cons '{' cs (by decide)]
  simp only [if_pos rfl, hss]
  simp

theorem pValue_arr_empty (f : Nat) (cs r2 : List Char) (hss : skipSpace cs = ']' :: r2) :
    pValue (f + 1) ('[' :: cs) = some (.arr [], r2) := by
  rw [pValue_step, skipSpace_cons '[' cs (by decide)]
  simp only [hss]
  simp

theorem numStop_rbrack (t : List Char) : numStop (']' :: t) = true := by
  simp [numStop]
  decide

theorem numStop_rbrace (t : List Char) : numStop ('}' :: t) = true := by
  simp [numStop]
  decide

theorem numStop_comma (t : List Char) : numStop (',' :: t) = true := by
  simp [numStop]
  decide

theorem intChars_head (n : Int) :
    ∃ c t, intChars n = c :: t ∧ jsonWs c = false ∧ c ≠ '{' ∧ c ≠ '[' ∧ c ≠ '"' ∧
      c ≠ 't' ∧ c ≠ 'f' ∧ c ≠ 'n' := by
  by_cases h : n < 0
  · refine ⟨'-', digitsOf n.natAbs, ?_, by decide, by decide, by decide, by decide,
      by decide, by decide, by decide⟩
    rw [intChars, if_pos h]
  · obtain ⟨c, t, hct, hd, -⟩ := digitsOf_head n.natAbs
    obtain ⟨hb1, -, hb3, hb4, -, -, -, hb8, hb9, hb10, -⟩ := decDigit_ne c hd
    have hws := (decDigit_ne c hd).2.2.2.2.2.2.2.2.2.2.2.2.2.2.2.2
    refine ⟨c, t, ?_, hws, hb1, hb4, hb3, hb8, hb9, hb10⟩
    rw [intChars, if_neg h, hct]

theorem encStr_len (s : String) : (encStr s).length = (escBody s.data).length + 2 := by
  simp [encStr]

theorem tameStr_chars (s : String) (h : tameStr s = true) : ∀ c ∈ s.data, 32 ≤ c.toNat := by
  simpa [tameStr, List.all_eq_true] using h

mutual

/-- Parsing a serialised value consumes it exactly (with enough fuel, and
a remainder that cannot extend a serialised number). -/
theorem pValue_enc : ∀ (j : Json) (fuel : Nat) (rest : List Char),
    j.wf = true → j.enc.length < fuel →
    (∀ q, j = Json.num q → numStop rest = true) →
    pValue fuel (j.enc ++ rest) = some (j, rest)
  | j, 0, rest, _, hf, _ => absurd hf (by omega)
  | .null, fuel + 1, rest, _, _, _ => by
    rw [enc_null,
      show (['n', 'u', 'l', 'l'] : List Char) ++ rest = 'n' :: 'u' :: 'l' :: 'l' :: rest from
        rfl,
      pValue_step, skipSpace_cons 'n' _ (by decide)]
    simp [afterLit]
  | .bool true, fuel + 1, rest, _, _, _ => by
    rw [enc_bool_true,
      show (['t', 'r', 'u', 'e'] : List Char) ++ rest = 't' :: 'r' :: 'u' :: 'e' :: rest from
        rfl,
      pValue_step, skipSpace_cons 't' _ (by decide)]
    simp [afterLit]
  | .bool false, fuel + 1, rest, _, _, _ => by
    rw [enc_bool_false,
      show (['f', 'a', 'l', 's', 'e'] : List Char) ++ rest
          = 'f' :: 'a' :: 'l' :: 's' :: 'e' :: rest from rfl,
      pValue_step, skipSpace_cons 'f' _ (by decide)]
    simp [afterLit]
  | .num q, fuel + 1, rest, hw, _, hnm => by
    have hr : numStop rest = true := hnm q rfl
    have hden : q.den = 1 := by
      rw [wf_num] at hw
      exact of_decide_eq_true hw
    have hq : ((q.num : ℚ)) = q := Rat.coe_int_num_of_den_eq_one hden
    obtain ⟨c0, t0, hct, hws, h1, h2, h3, h4, h5, h6⟩ := intChars_head q.num
    rw [enc_num, hct, List.cons_append, pValue_atom fuel c0 _ hws h1 h2 h3 h4 h5 h6,
      ← List.cons_append, ← hct, pNumber_intChars q.num rest hr]
    simp [hq]
  | .str s, fuel + 1, rest, hw, _, _ => by
    rw [wf_str] at hw
    rw [enc_str_eq, encStr, List.cons_append, List.append_assoc, List.singleton_append,
      pValue_strlit, pStrBody_escBody s.data (tameStr_chars s hw) rest]
    simp [strMk_data]
  | .arr [], fuel + 1, rest, _, _, _ => by
    rw [enc_arr_nil,
      show (['[', ']'] : List Char) ++ rest = '[' :: ']' :: rest from rfl]
    exact pValue_arr_empty fuel _ rest (skipSpace_cons ']' rest (by decide))
  | .arr (x :: xs), fuel + 1, rest, hw, hf, _ => by
    rw [wf_arr] at hw
    rw [enc_arr_cons] at hf
    rw [enc_arr_cons, List.cons_append, List.append_assoc, List.singleton_append]
    obtain ⟨c0, t0, hel, hws0, hrb0, -⟩ := encElems_head x xs
    have hss : skipSpace (encElems x xs ++ ']' :: rest) = c0 :: (t0 ++ ']' :: rest) := by
      rw [hel, List.cons_append, skipSpace_cons _ _ hws0]
    rw [pValue_arr_go fuel _ c0 _ hss hrb0, ← List.cons_append, ← hel]
    rw [pElems_enc x xs fuel rest hw
      (by simp only [List.length_cons, List.length_append, List.length_singleton] at hf; omega)]
    rfl
  | .obj [], fuel + 1, rest, _, _, _ => by
    rw [enc_obj_nil,
      show (['{', '}'] : List Char) ++ rest = '{' :: '}' :: rest from rfl]
    exact pValue_obj_empty fuel _ rest (skipSpace_cons '}' rest (by decide))
  | .obj (kv :: kvs), fuel + 1, rest, hw, hf, _ => by
    rw [wf_obj] at hw
    rw [enc_obj_cons] at hf
    rw [enc_obj_cons, List.cons_append, List.append_assoc, List.singleton_append]
    obtain ⟨t0, hmem⟩ := encMembers_head kv kvs
    have hss : skipSpace (encMembers kv kvs ++ '}' :: rest) = '"' :: (t0 ++ '}' :: rest) := by
      rw [hmem, List.cons_append, skipSpace_cons _ _ (by decide)]
    rw [pValue_obj_go fuel _ '"' _ hss (by decide), ← List.cons_append, ← hmem]
    rw [pMembers_enc kv kvs fuel rest (by rw [Bool.and_eq_true] at hw; exact hw.1)
      (by simp only [List.length_cons, List.length_append, List.length_singleton] at hf; omega)]
    rfl
  termination_by j _ _ _ _ _ => sizeOf j

/-- Parsing serialised array elements (the closing bracket included). -/
theorem pElems_enc : ∀ (x : Json) (xs : List Json) (fuel : Nat) (rest : List Char),
    Json.wfElems (x :: xs) = true → (encElems x xs).length + 1 < fuel →
    pElems fuel (encElems x xs ++ ']' :: rest) = some (x :: xs, rest)
  | _, _, 0, _, _, hf => absurd hf (by omega)
  | x, [], fuel + 1, rest, hw, hf => by
    rw [wfElems_cons, Bool.and_eq_true] at hw
    rw [encElems_one] at hf
    have h1 : skipSpace (']' :: rest) = ']' :: rest := skipSpace_cons ']' rest (by decide)
    rw [encElems_one, pElems_step,
      pValue_enc x fuel (']' :: rest) hw.1 (by omega) (fun q _ => numStop_rbrack rest)]
    simp [h1]
  | x, y :: ys, fuel + 1, rest, hw, hf => by
    rw [wfElems_cons, Bool.and_eq_true] at hw
    rw [encElems_cons] at hf
    have hlx := enc_len_pos x
    have h1 : skipSpace (',' :: (encElems y ys ++ ']' :: rest))
        = ',' :: (encElems y ys ++ ']' :: rest) := skipSpace_cons ',' _ (by decide)
    rw [encElems_cons, List.append_assoc, List.cons_append, pElems_step,
      pValue_enc x fuel (',' :: (encElems y ys ++ ']' :: rest)) hw.1
        (by simp only [List.length_append, List.length_cons] at hf; omega)
        (fun q _ => numStop_comma _)]
    simp only [h1]
    rw [pElems_enc y ys fuel rest hw.2
      (by simp only [List.length_append, List.length_cons] at hf; omega)]
    rfl
  termination_by x xs _ _ _ _ => sizeOf x + sizeOf xs

/-- Parsing serialised object members (the closing brace included). -/
theorem pMembers_enc : ∀ (kv : String × Json) (kvs : List (String × Json)) (fuel : Nat)
    (rest : List Char),
    Json.wfMembers (kv :: kvs) = true → (encMembers kv kvs).length + 1 < fuel →
    pMembers fuel (encMembers kv kvs ++ '}' :: rest) = some (kv :: kvs, rest)
  | _, _, 0, _, _, hf => absurd hf (by omega)
  | (k, v), [], fuel + 1, rest, hw, hf => by
    rw [wfMembers_cons, Bool.and_eq_true, Bool.and_eq_true] at hw
    have hfv : v.enc.length < fuel := by
      rw [encMembers_one] at hf
      simp only [List.length_append, List.length_cons, encStr_len] at hf
      omega
    rw [encMembers_one, encStr]
    simp only [List.cons_append, List.append_assoc, List.singleton_append]
    have hkey := pStrBody_escBody k.data (tameStr_chars k hw.1.1)
      (':' :: (v.enc ++ '}' :: rest))
    have hc1 : skipSpace (':' :: (v.enc ++ '}' :: rest)) = ':' :: (v.enc ++ '}' :: rest) :=
      skipSpace_cons ':' _ (by decide)
    have hval := pValue_enc v fuel ('}' :: rest) hw.1.2 hfv (fun q _ => numStop_rbrace rest)
    have hc2 : skipSpace ('}' :: rest) = '}' :: rest := skipSpace_cons '}' rest (by decide)
    rw [pMembers_step]
    simp [hkey, hc1, hval, hc2, strMk_data]
  | (k, v), kv2 :: kvs, fuel + 1, rest, hw, hf => by
    rw [wfMembers_cons, Bool.and_eq_true, Bool.and_eq_true] at hw
    obtain ⟨t0, hmem⟩ := encMembers_head kv2 kvs
    have hlv := enc_len_pos v
    have hfv : v.enc.length < fuel ∧ (encMembers kv2 kvs).length + 1 < fuel := by
      rw [encMembers_cons] at hf
      simp only [List.length_append, List.length_cons, encStr_len] at hf
      omega
    rw [encMembers_cons, encStr]
    simp only [List.cons_append, List.append_assoc, List.singleton_append]
    have hkey := pStrBody_escBody k.data (tameStr_chars k hw.1.1)
      (':' :: (v.enc ++ ',' :: (encMembers kv2 kvs ++ '}' :: rest)))
    have hc1 : skipSpace (':' :: (v.enc ++ ',' :: (encMembers kv2 kvs ++ '}' :: rest)))
        = ':' :: (v.enc ++ ',' :: (encMembers kv2 kvs ++ '}' :: rest)) :=
      skipSpace_cons ':' _ (by decide)
    have hval := pValue_enc v fuel (',' :: (encMembers kv2 kvs ++ '}' :: rest)) hw.1.2
      hfv.1 (fun q _ => numStop_comma _)
    have hc2 : skipSpace (',' :: (encMembers kv2 kvs ++ '}' :: rest))
        = ',' :: (encMembers kv2 kvs ++ '}' :: rest) := skipSpace_cons ',' _ (by decide)
    have hss : skipSpace (encMembers kv2 kvs ++ '}' :: rest)
        = encMembers kv2 kvs ++ '}' :: rest := by
      rw [hmem, List.cons_append, skipSpace_cons _ _ (by decide)]
    have htail := pMembers_enc kv2 kvs fuel rest hw.2 hfv.2
    rw [pMembers_step]
    simp [hkey, hc1, hval, hc2, hss, htail, strMk_data]
  termination_by kv kvs _ _ _ _ => sizeOf kv + sizeOf kvs

end

/-! ### Whole-text parses of serialised values -/

theorem json_loads_enc (j : Json) (hw : j.wf = true) :
    json_loads (String.mk j.enc) = some j := by
  have h := pValue_enc j (j.enc.length + 1) [] hw (by omega) (fun q _ => rfl)
  rw [List.append_nil] at h
  simp only [json_loads]
  rw [h]
  rfl

theorem json_loads_enc_rest (j : Json) (rest : List Char) (hw : j.wf = true)
    (hnm : ∀ q, j = Json.num q → numStop rest = true) :
    json_loads (String.mk (j.enc ++ rest))
      = if skipSpace rest = [] then some j else none := by
  have hlen : j.enc.length < (j.enc ++ rest).length + 1 := by
    simp only [List.length_append]
    omega
  have h := pValue_enc j ((j.enc ++ rest).length + 1) rest hw hlen hnm
  simp only [json_loads]
  rw [h]

/-- A parse that yields an object can only have begun at a `{`. -/
theorem pValue_obj_head (fuel : Nat) (cs : List Char) (kvs : List (String × Json))
    (r : List Char) (h : pValue fuel cs = some (Json.obj kvs, r)) :
    ∃ t, skipSpace cs = '{' :: t := by
  cases fuel with
  | zero =>
    rw [show pValue 0 cs = none from rfl] at h
    exact absurd h (by simp)
  | succ f =>
    rw [pValue_step] at h
    split at h
    · exact absurd h (by simp)
    · rename_i c t hss
      by_cases h1 : c = '{'
      · exact ⟨t, by rw [← h1]; exact hss⟩
      · exfalso
        rw [if_neg h1] at h
        repeat' split at h
        all_goals simp_all [Option.map_eq_some']

/-! ### Python `strip` around an embedded serialised object -/

theorem dropWhile_head_false {α : Type} (pr : α → Bool) (l : List α) (c : α) (t : List α)
    (h : l.dropWhile pr = c :: t) : pr c = false := by
  induction l with
  | nil => simp at h
  | cons x xs ih =>
    rw [List.dropWhile_cons] at h
    by_cases hx : pr x = true
    · rw [if_pos hx] at h
      exact ih h
    · rw [if_neg hx] at h
      cases h
      simpa using hx

theorem dropWhile_append_head {α : Type} (pr : α → Bool) (a : List α) (c : α) (t : List α)
    (hc : pr c = false) :
    (a ++ c :: t).dropWhile pr = a.dropWhile pr ++ c :: t := by
  induction a with
  | nil => simp [List.dropWhile_cons, hc]
  | cons x xs ih =>
    by_cases hx : pr x = true
    · simp [List.dropWhile_cons, hx, ih]
    · simp [List.dropWhile_cons, hx]

theorem jsonWs_pyWs (c : Char) (h : jsonWs c = true) : pyWs c = true := by
  simp only [jsonWs, Bool.or_eq_true, decide_eq_true_eq] at h
  simp only [pyWs, Bool.or_eq_true, decide_eq_true_eq]
  tauto

/-- An object's serialisation starts with `{` and ends with `}`. -/
theorem enc_obj_ends (kvs : List (String × Json)) :
    ∃ mid, Json.enc (.obj kvs) = '{' :: mid ++ ['}'] := by
  cases kvs with
  | nil => exact ⟨[], by rw [enc_obj_nil]; rfl⟩
  | cons kv kvs =>
    refine ⟨encMembers kv kvs, ?_⟩
    rw [enc_obj_cons]
    simp

theorem pyStrip_embed (p s : List Char) (kvs : List (String × Json)) :
    pyStripL (p ++ Json.enc (.obj kvs) ++ s)
      = p.dropWhile pyWs ++ Json.enc (.obj kvs) ++ (s.reverse.dropWhile pyWs).reverse := by
  obtain ⟨mid, hmid⟩ := enc_obj_ends kvs
  rw [pyStripL]
  have h1 : (p ++ Json.enc (.obj kvs) ++ s).dropWhile pyWs
      = p.dropWhile pyWs ++ (Json.enc (.obj kvs) ++ s) := by
    have hsh : p ++ Json.enc (.obj kvs) ++ s = p ++ '{' :: (mid ++ '}' :: s) := by
      rw [hmid]
      simp
    rw [hsh, dropWhile_append_head pyWs p '{' _ (by decide), hmid]
    simp
  rw [h1]
  have h2 : (p.dropWhile pyWs ++ (Json.enc (.obj kvs) ++ s)).reverse
      = s.reverse ++ (Json.enc (.obj kvs)).reverse ++ (p.dropWhile pyWs).reverse := by
    simp
  rw [h2]
  have h3 : (Json.enc (.obj kvs)).reverse = '}' :: (mid.reverse ++ ['{']) := by
    rw [hmid]
    simp
  have h4 : (s.reverse ++ ((Json.enc (.obj kvs)).reverse ++ (p.dropWhile pyWs).reverse)).dropWhile
        pyWs
      = s.reverse.dropWhile pyWs ++ ((Json.enc (.obj kvs)).reverse ++ (p.dropWhile pyWs).reverse)
      := by
    rw [h3, List.cons_append]
    exact dropWhile_append_head pyWs _ '}' _ (by decide)
  rw [← List.append_assoc] at h4
  rw [h4]
  simp

theorem braceIdx_append (p : List Char) (hp : '{' ∉ p) (t : List Char) :
    braceIdx (p ++ '{' :: t) = some p.length := by
  induction p with
  | nil => simp [braceIdx]
  | cons c cs ih =>
    have hc : c ≠ '{' := fun h => hp (h ▸ List.mem_cons_self c cs)
    rw [List.cons_append]
    simp only [braceIdx, if_neg hc, ih (fun h => hp (List.mem_cons_of_mem c h))]
    simp

/-! ### Extraction of an embedded serialised object -/

/-- The fallback (first-brace scan) branch of `extract_json_object`
recovers an embedded serialised object exactly, for any prefix free of
`{` and any suffix. -/
theorem extract_fallback (kvs : List (String × Json)) (p' s' : List Char)
    (hw : (Json.obj kvs).wf = true) (hp : '{' ∉ p') :
    (match _find_json_object_span (p' ++ Json.enc (.obj kvs) ++ s') with
     | none => (.error "No JSON object found in response" : Except String Json)
     | some (a, b) =>
       match json_loads
           (String.mk (((p' ++ Json.enc (.obj kvs) ++ s').drop a).take (b - a))) with
       | some j => .ok j
       | none => .error "Expecting value") = .ok (Json.obj kvs) := by
  obtain ⟨mid, hmid⟩ := enc_obj_ends kvs
  have hshape : p' ++ Json.enc (.obj kvs) ++ s' = p' ++ '{' :: (mid ++ '}' :: s') := by
    rw [hmid]
    simp
  have hidx : braceIdx (p' ++ Json.enc (.obj kvs) ++ s') = some p'.length := by
    rw [hshape]
    exact braceIdx_append p' hp _
  have hdrop : (p' ++ Json.enc (.obj kvs) ++ s').drop p'.length
      = Json.enc (.obj kvs) ++ s' := by
    rw [List.append_assoc]
    exact List.drop_left p' _
  have hscan : scanBrace 0 false false p'.length
      ((p' ++ Json.enc (.obj kvs) ++ s').drop p'.length)
      = some (p'.length + (Json.enc (.obj kvs)).length) := by
    rw [hdrop]
    exact scanBrace_obj kvs p'.length s'
  have hspan : _find_json_object_span (p' ++ Json.enc (.obj kvs) ++ s')
      = some (p'.length, p'.length + (Json.enc (.obj kvs)).length) := by
    simp only [_find_json_object_span, hidx, hscan]
    rfl
  have hsub : ((p' ++ Json.enc (.obj kvs) ++ s').drop p'.length).take
      (p'.length + (Json.enc (.obj kvs)).length - p'.length) = Json.enc (.obj kvs) := by
    rw [hdrop, Nat.add_sub_cancel_left]
    exact List.take_left _ _
  simp only [hspan]
  rw [hsub, json_loads_enc (Json.obj kvs) hw]

/-- Extraction returns exactly an embedded serialised object: for any
serialisable object value, any prose prefix containing no `{`, and any
suffix at all. -/
theorem strMkData (l : List Char) : (String.mk l).data = l := rfl

/-- A text whose first non-whitespace character is neither whitespace nor
`{` cannot strictly parse as a JSON object. -/
theorem json_loads_not_obj (L : List Char) (c : Char) (t : List Char)
    (hL : L = c :: t) (hws : jsonWs c = false) (hne : c ≠ '{')
    (kvs0 : List (String × Json)) :
    json_loads (String.mk L) ≠ some (Json.obj kvs0) := by
  intro h
  simp only [json_loads, strMkData] at h
  rcases hpv : pValue (L.length + 1) L with _ | ⟨j, r⟩
  · rw [hpv] at h
    exact absurd h (by simp)
  · rw [hpv] at h
    have hj : j = Json.obj kvs0 := by
      by_cases hsk : skipSpace r = []
      · simpa [hsk] using h
      · simp [hsk] at h
    subst hj
    obtain ⟨u, hu⟩ := pValue_obj_head _ _ _ _ hpv
    rw [hL, skipSpace_cons c t hws] at hu
    cases hu
    exact hne rfl

theorem extract_embedded_object (kvs : List (String × Json)) (p s : String)
    (hw : (Json.obj kvs).wf = true) (hp : '{' ∉ p.data) :
    extract_json_object (p ++ String.mk (Json.enc (.obj kvs)) ++ s)
      = .ok (Json.obj kvs) := by
  have hdata : (p ++ String.mk (Json.enc (.obj kvs)) ++ s).data
      = p.data ++ Json.enc (.obj kvs) ++ s.data := by
    rw [String.data_append, String.data_append]
  simp only [extract_json_object]
  rw [hdata, pyStrip_embed p.data s.data kvs]
  have hp2 : '\x7b' ∉ p.data.dropWhile pyWs :=
    fun h => hp ((List.dropWhile_sublist pyWs).mem h)
  have hne : ∀ a b : List Char, (a ++ Json.enc (.obj kvs) ++ b).isEmpty = false := by
    intro a b
    rcases hE : a ++ Json.enc (.obj kvs) ++ b with _ | ⟨x, xs⟩
    · exfalso
      rcases List.append_eq_nil.mp hE with ⟨h1, -⟩
      rcases List.append_eq_nil.mp h1 with ⟨-, h2⟩
      have := enc_len_pos (Json.obj kvs)
      rw [h2] at this
      simp at this
    · rfl
  rw [if_neg (by rw [strMkData, hne]; decide)]
  rcases hpe : p.data.dropWhile pyWs with _ | ⟨c, t⟩
  · -- No prose prefix survives the strip.
    rcases hdw : s.data.reverse.dropWhile pyWs with _ | ⟨c, t⟩
    · -- No suffix either: the strict whole-text parse succeeds.
      simp [json_loads_enc (Json.obj kvs) hw]
    · have hcpy : pyWs c = false := dropWhile_head_false pyWs _ c t hdw
      have hss : skipSpace ((c :: t).reverse) ≠ [] := by
        intro h
        have hall := List.dropWhile_eq_nil_iff.mp h
        have := jsonWs_pyWs c (hall c (by simp))
        rw [hcpy] at this
        exact absurd this (by decide)
      simp only [List.nil_append]
      rw [json_loads_enc_rest (Json.obj kvs) _ hw (fun q h => nomatch h), if_neg hss]
      have hfb := extract_fallback kvs [] ((c :: t).reverse) hw (by simp)
      simpa using hfb
  · -- A prose prefix survives: the strict parse cannot yield an object.
    have hws : pyWs c = false := dropWhile_head_false pyWs p.data c t hpe
    have hjws : jsonWs c = false := by
      cases h : jsonWs c with
      | false => rfl
      | true =>
        rw [jsonWs_pyWs c h] at hws
        exact absurd hws (by decide)
    have hcne : c ≠ '\x7b' := by
      rw [hpe] at hp2
      exact fun h => hp2 (h ▸ List.mem_cons_self c t)
    have hnotobj := fun kvs0 => json_loads_not_obj
      ((c :: t) ++ Json.enc (.obj kvs) ++ (s.data.reverse.dropWhile pyWs).reverse)
      c (t ++ (Json.enc (.obj kvs) ++ (s.data.reverse.dropWhile pyWs).reverse))
      (by simp) hjws hcne kvs0
    have hfb := extract_fallback kvs (c :: t) ((s.data.reverse.dropWhile pyWs).reverse) hw
      (by rw [← hpe]; exact hp2)
    rcases hjl : json_loads (String.mk ((c :: t) ++ Json.enc (.obj kvs)
        ++ (s.data.reverse.dropWhile pyWs).reverse)) with _ | j
    · exact hfb
    · cases j with
      | obj kvs0 => exact absurd hjl (hnotobj kvs0)
      | null => exact hfb
      | bool b => exact hfb
      | num q => exact hfb
      | str s0 => exact hfb
      | arr xs => exact hfb

/-! ### Claim C1 -/

theorem example_object_enc :
    (Json.obj [("a", Json.str "\x7d"), ("b", Json.num 1)]).enc
      = "\x7b\"a\":\"\x7d\",\"b\":1\x7d".data := by
  rw [enc_obj_cons, encMembers_cons, encMembers_one, enc_str_eq, enc_num]
  simp only [intChars]
  norm_num
  rw [digitsOf_unfold]
  norm_num
  decide

/-- C1: for every input text consisting of a single (serialisable) JSON
object preceded by `{`-free prose and followed by arbitrary prose,
`extract_json_object` returns exactly that object — a `}` inside a
double-quoted string (escaped quotes included) is non-structural; in
particular the input `foo {"a":"}","b":1} bar` yields exactly the object
`{"a":"}","b":1}`. -/
theorem claim_C1_extract_embedded (kvs : List (String × Json)) (p s : String)
    (hw : (Json.obj kvs).wf = true) (hp : '\x7b' ∉ p.data) :
    extract_json_object (p ++ String.mk (Json.enc (.obj kvs)) ++ s) = .ok (Json.obj kvs) ∧
    extract_json_object "foo \x7b\"a\":\"\x7d\",\"b\":1\x7d bar"
      = .ok (Json.obj [("a", Json.str "\x7d"), ("b", Json.num 1)]) := by
  constructor
  · exact extract_embedded_object kvs p s hw hp
  · have hlit : "foo \x7b\"a\":\"\x7d\",\"b\":1\x7d bar"
        = "foo " ++ String.mk (Json.obj [("a", Json.str "\x7d"), ("b", Json.num 1)]).enc
            ++ " bar" := by
      rw [example_object_enc, strMk_data]
      decide
    rw [hlit]
    exact extract_embedded_object [("a", Json.str "\x7d"), ("b", Json.num 1)] "foo " " bar"
      (by decide) (by decide)

/-- Witness for C1 at the claim's own example input. -/
theorem claim_C1_witness :
    extract_json_object "foo \x7b\"a\":\"\x7d\",\"b\":1\x7d bar"
      = .ok (Json.obj [("a", Json.str "\x7d"), ("b", Json.num 1)]) :=
  (claim_C1_extract_embedded [("a", Json.str "\x7d"), ("b", Json.num 1)] "foo " " bar"
    (by decide) (by decide)).2

/-! ### Claim C9 support -/

theorem braceIdx_drop (cs : List Char) : ∀ (a : Nat), braceIdx cs = some a →
    ∃ u, cs.drop a = '\x7b' :: u := by
  induction cs with
  | nil => intro a h; simp [braceIdx] at h
  | cons c t ih =>
    intro a h
    rw [braceIdx] at h
    by_cases hc : c = '\x7b'
    · rw [if_pos hc] at h
      cases h
      exact ⟨t, by subst hc; rfl⟩
    · rw [if_neg hc] at h
      rcases ha : braceIdx t with _ | a0
      · rw [ha] at h
        exact absurd h (by simp)
      · rw [ha] at h
        have h2 : a = a0 + 1 := by
          have h3 := h.symm
          simp only [Option.map_some'] at h3
          cases h3
          rfl
        obtain ⟨u, hu⟩ := ih a0 ha
        exact ⟨u, by rw [h2]; simpa using hu⟩

theorem scanBrace_lb (cs : List Char) : ∀ (d : Int) (b e : Bool) (i ee : Nat),
    scanBrace d b e i cs = some ee → i + 1 ≤ ee := by
  induction cs with
  | nil => intro d b e i ee h; simp [scanBrace] at h
  | cons c t ih =>
    intro d b e i ee h
    rw [scanBrace.eq_def] at h
    by_cases h1 : b = true <;> by_cases h2 : e = true <;>
      simp only [h1, h2, if_true, if_false] at h <;>
      (try subst h1) <;> (try subst h2)
    all_goals
      repeat' split at h
    all_goals first
      | (cases h; omega)
      | (have hih := ih _ _ _ _ _ h; omega)

/-- A parse whose input starts (after whitespace) at `{` yields an object. -/
theorem pValue_obj_of_head (fuel : Nat) (cs : List Char) (j : Json) (r : List Char)
    (t : List Char) (hss : skipSpace cs = '\x7b' :: t)
    (h : pValue fuel cs = some (j, r)) : ∃ kvs, j = Json.obj kvs := by
  cases fuel with
  | zero =>
    rw [show pValue 0 cs = none from rfl] at h
    exact absurd h (by simp)
  | succ f =>
    rw [pValue_step] at h
    split at h
    · exact absurd h (by simp)
    · rename_i c t2 heq
      rw [hss] at heq
      cases heq
      rw [if_pos rfl] at h
      split at h
      · cases h
        exact ⟨[], rfl⟩
      · obtain ⟨p, -, hp2⟩ := Option.map_eq_some'.mp h
        exact ⟨p.1, (congrArg Prod.fst hp2).symm⟩

/-- A successful `json_loads` of a `{`-headed text yields an object. -/
theorem json_loads_obj_of_head (l u : List Char) (hl : l = '\x7b' :: u) (j : Json)
    (h : json_loads (String.mk l) = some j) : ∃ kvs, j = Json.obj kvs := by
  simp only [json_loads, strMkData] at h
  rcases hpv : pValue (l.length + 1) l with _ | ⟨j0, r⟩
  · rw [hpv] at h
    exact absurd h (by simp)
  · rw [hpv] at h
    have hj : j0 = j := by
      by_cases hsk : skipSpace r = []
      · simpa [hsk] using h
      · simp [hsk] at h
    subst hj
    exact pValue_obj_of_head _ l j0 r u (by rw [hl, skipSpace_cons _ _ (by decide)]) hpv

/-- Whenever `extract_json_object` succeeds, its value is an object. -/
theorem extract_ok_isObj (t : String) (j : Json) (h : extract_json_object t = .ok j) :
    ∃ kvs, j = Json.obj kvs := by
  simp only [extract_json_object, strMkData] at h
  split at h
  · exact absurd h (by simp)
  · split at h
    · rename_i kvs heq
      cases h
      exact ⟨kvs, rfl⟩
    · rcases hspan : _find_json_object_span (pyStripL t.data) with _ | ⟨a, b⟩
      · simp only [hspan] at h
        exact absurd h (by simp)
      · simp only [hspan] at h
        rcases hload : json_loads (String.mk (((pyStripL t.data).drop a).take (b - a)))
          with _ | j0
        · simp only [hload] at h
          exact absurd h (by simp)
        · simp only [hload] at h
          have hj : j0 = j := by simpa using h
          subst hj
          simp only [_find_json_object_span] at hspan
          rcases hbi : braceIdx (pyStripL t.data) with _ | a0
          · simp only [hbi] at hspan
            exact absurd hspan (by simp)
          · simp only [hbi] at hspan
            rcases hsc : scanBrace 0 false false a0 ((pyStripL t.data).drop a0) with _ | e0
            · simp only [hsc] at hspan
              exact absurd hspan (by simp)
            · simp only [hsc, Option.map_some'] at hspan
              have ha : a0 = a ∧ e0 = b := by
                cases hspan
                exact ⟨rfl, rfl⟩
              obtain ⟨rfl, rfl⟩ := ha
              obtain ⟨u, hu⟩ := braceIdx_drop _ _ hbi
              have hlb := scanBrace_lb _ _ _ _ _ _ hsc
              have hsub : ((pyStripL t.data).drop a0).take (e0 - a0)
                  = '\x7b' :: u.take (e0 - a0 - 1) := by
                rw [hu]
                rw [show e0 - a0 = (e0 - a0 - 1) + 1 from by omega]
                rfl
              exact json_loads_obj_of_head _ _ hsub j0 hload

/-! ### Claim C9 -/

theorem c9_object_enc :
    (Json.obj [("a", Json.num 1)]).enc = "\x7b\"a\":1\x7d".data := by
  rw [enc_obj_cons, encMembers_one, enc_num]
  simp only [intChars]
  norm_num
  rw [digitsOf_unfold]
  norm_num
  decide

/-- C9: `extract_json_object`, when it succeeds, always returns a JSON
object (never a top-level array, string or number); if the whole input
strictly parses to a non-object value that value is discarded and the
first embedded brace-delimited object is extracted instead, so the input
`[{"a":1}]` yields the inner object `{"a":1}` rather than the array. -/
theorem claim_C9_object_only :
    (∀ (t : String) (j : Json), extract_json_object t = .ok j →
      ∃ kvs, j = Json.obj kvs) ∧
    extract_json_object "[\x7b\"a\":1\x7d]" = .ok (Json.obj [("a", Json.num 1)]) := by
  constructor
  · exact extract_ok_isObj
  · have hlit : "[\x7b\"a\":1\x7d]"
        = "[" ++ String.mk (Json.obj [("a", Json.num 1)]).enc ++ "]" := by
      rw [c9_object_enc, strMk_data]
      decide
    rw [hlit]
    exact extract_embedded_object [("a", Json.num 1)] "[" "]" (by decide) (by decide)

/-! ### Claim C3 -/

theorem except_bind_ok {α β : Type} (x : Except String α) (f : α → Except String β)
    (b : β) (h : x >>= f = .ok b) : ∃ a, x = .ok a ∧ f a = .ok b := by
  cases x with
  | error e => simp [Bind.bind, Except.bind] at h
  | ok a => exact ⟨a, rfl, by simpa [Bind.bind, Except.bind] using h⟩

/-- C3: for every model in the reasoning-capable family (trimmed,
casefolded prefix match) the built kwargs never contain `temperature`
even when one is configured, and for every model outside the family the
built kwargs never contain the `reasoning` controls. -/
theorem claim_C3_temperature_reasoning (model : String) (settings : Settings)
    (force_json : Bool) (kw : ResponsesKwargs)
    (h : build_responses_create_kwargs model settings force_json = .ok kw) :
    (_supports_reasoning model = true → kw.temperature = none) ∧
    (_supports_reasoning model = false → kw.reasoning = none) := by
  simp only [build_responses_create_kwargs] at h
  constructor
  · intro hr
    simp only [_supports_temperature, hr, Bool.not_true, Bool.and_false,
      Bool.false_eq_true, if_false, if_true, Bind.bind, Except.bind,
      Pure.pure, Except.pure, throw, throwThe, MonadExceptOf.throw] at h
    repeat' split at h
    all_goals first
      | (simp only [Except.ok.injEq] at h; rw [← h])
      | simp at h
  · intro hr
    simp only [hr, Bool.false_eq_true, if_false, if_true, Bind.bind, Except.bind,
      Pure.pure, Except.pure, throw, throwThe, MonadExceptOf.throw] at h
    repeat' split at h
    all_goals first
      | (simp only [Except.ok.injEq] at h; rw [← h])
      | simp at h

/-- Witness for C3: the reasoning model `gpt-5` drops a configured
temperature; the non-reasoning model `gpt-4o-mini` gets no reasoning
controls. -/
theorem claim_C3_witness :
    (⟨some 1000, none, some ⟨some "low", none⟩, none⟩ :
        ResponsesKwargs).temperature = none ∧
    (⟨some 1000, some 1, none, none⟩ : ResponsesKwargs).reasoning = none :=
  ⟨(claim_C3_temperature_reasoning "gpt-5"
      ⟨some 1000, some 1, some "low # fast", none, none, false⟩ false
      ⟨some 1000, none, some ⟨some "low", none⟩, none⟩ (by rfl)).1 (by decide),
   (claim_C3_temperature_reasoning "gpt-4o-mini"
      ⟨some 1000, some 1, none, none, none, false⟩ false
      ⟨some 1000, some 1, none, none⟩ (by rfl)).2 (by decide)⟩

/-! ### Claim C4 -/

/-- C4 counterexample: for a model outside the reasoning family the
builder does not validate the configured reasoning effort at all — the
out-of-list value `ultra` is silently dropped instead of raising
ConfigError, contradicting the for-every-model reading of the claim. -/
theorem claim_C4_counterexample :
    build_responses_create_kwargs "gpt-4o-mini"
      ⟨none, none, some "ultra", none, none, false⟩ false
      = .ok ⟨none, none, none, none⟩ := by rfl

/-- C4 (amended): enumerated options are normalized by stripping the
`#`-comment suffix and casefolding and checked against the allow-lists,
but effort/summary only for reasoning-family models; `"low # fast"`
normalizes to `"low"` and validates, `"ultra"` as effort raises
ConfigError on a reasoning-family model, and an out-of-list verbosity
raises ConfigError for every model. -/
theorem claim_C4_enum_validation :
    normalizeEnum "low # fast" = "low" ∧
    build_responses_create_kwargs "gpt-5"
        ⟨none, none, some "low # fast", none, none, false⟩ false
      = .ok ⟨none, none, some ⟨some "low", none⟩, none⟩ ∧
    build_responses_create_kwargs "gpt-5"
        ⟨none, none, some "ultra", none, none, false⟩ false
      = .error "OPENAI_REASONING_EFFORT must be one of high, low, medium, minimal, none, xhigh" ∧
    (∀ (model : String) (fj : Bool),
      build_responses_create_kwargs model
          ⟨none, none, none, none, some "ultra", false⟩ fj
        = .error "OPENAI_TEXT_VERBOSITY must be one of high, low, medium") := by
  refine ⟨by decide, by rfl, by rfl, ?_⟩
  intro model fj
  cases hr : _supports_reasoning model <;>
    simp [build_responses_create_kwargs, hr, Bind.bind, Except.bind, Pure.pure,
      Except.pure, throw, throwThe, MonadExceptOf.throw, truthyStr] <;>
    decide

/-! ### Claim C5 -/

/-- C5 counterexample: a `range_jpy` with low > high passes validation —
nothing in the schema enforces the claimed low ≤ high ordering. -/
theorem claim_C5_counterexample :
    ValuationResult.validate
        (Json.obj [("price_jpy", .num 100), ("range_jpy", .arr [.num 150, .num 90]),
          ("confidence", .num 1), ("rationale", .str "r"), ("evidence", .arr [])])
      = some ⟨100, (150, 90), 1, "r", []⟩ ∧
    ¬((150 : Int) ≤ 90) := ⟨rfl, by decide⟩

/-- C5 (amended): every `ValuationResult` that passes validation has
`confidence ∈ [0,1]` and `price_jpy ≥ 0`; the `range_jpy` ordering part
of the claim does not hold. -/
theorem claim_C5_validated_bounds (j : Json) (v : ValuationResult)
    (h : ValuationResult.validate j = some v) :
    0 ≤ v.confidence ∧ v.confidence ≤ 1 ∧ 0 ≤ v.price_jpy := by
  cases j with
  | obj kvs =>
    simp only [ValuationResult.validate, Bind.bind] at h
    rw [Option.bind_eq_some] at h
    obtain ⟨price, hp, h⟩ := h
    split at h
    · exact absurd h (by simp)
    · rename_i hpn
      rw [Option.bind_eq_some] at h
      obtain ⟨range, hrg, h⟩ := h
      rw [Option.bind_eq_some] at h
      obtain ⟨conf, hc, h⟩ := h
      split at h
      · exact absurd h (by simp)
      · rename_i hcn
        rw [Option.bind_eq_some] at h
        obtain ⟨rat, hra, h⟩ := h
        rw [Option.bind_eq_some] at h
        obtain ⟨ev, hev, h⟩ := h
        simp only [Pure.pure, Option.some.injEq] at h
        rw [← h]
        simp only [Bool.or_eq_true, decide_eq_true_eq, not_or, not_lt] at hcn
        refine ⟨hcn.1, hcn.2, ?_⟩
        show (0 : Int) ≤ price
        omega
  | null => exact absurd h (by simp [ValuationResult.validate])
  | bool b => exact absurd h (by simp [ValuationResult.validate])
  | num q => exact absurd h (by simp [ValuationResult.validate])
  | str s => exact absurd h (by simp [ValuationResult.validate])
  | arr xs => exact absurd h (by simp [ValuationResult.validate])

/-- Witness for C5 at a concrete validated result. -/
theorem claim_C5_witness :
    0 ≤ (⟨100, (150, 90), 1, "r", []⟩ : ValuationResult).confidence ∧
    (⟨100, (150, 90), 1, "r", []⟩ : ValuationResult).confidence ≤ 1 ∧
    0 ≤ (⟨100, (150, 90), 1, "r", []⟩ : ValuationResult).price_jpy :=
  claim_C5_validated_bounds
    (Json.obj [("price_jpy", .num 100), ("range_jpy", .arr [.num 150, .num 90]),
      ("confidence", .num 1), ("rationale", .str "r"), ("evidence", .arr [])])
    ⟨100, (150, 90), 1, "r", []⟩ (by rfl)

/-! ### Claim C6 -/

theorem afterFirst_label (l : List Char) (v : List Char) (h : ':' ∉ l) :
    afterFirst [':', ' '] (l ++ ':' :: ' ' :: v) = some v := by
  induction l with
  | nil =>
    simp [afterFirst, headMatches]
  | cons c cs ih =>
    have hc : (':' : Char) ≠ c := by
      intro he
      exact h (by rw [he]; exact List.mem_cons_self _ _)
    rw [List.cons_append, afterFirst, if_neg]
    · exact ih (fun hm => h (List.mem_cons_of_mem _ hm))
    · simp [headMatches, hc]

theorem partKept_eq (label v : String) (h : ':' ∉ label.data) :
    partKept (label ++ ": " ++ v) = !v.data.isEmpty := by
  unfold partKept
  have hd : (label ++ ": " ++ v).data = label.data ++ ':' :: ' ' :: v.data := by
    simp [List.append_assoc]
  rw [hd, afterFirst_label _ _ h]

theorem bang_isEmpty_eq_decide (v : String) : (!v.data.isEmpty) = decide (v ≠ "") := by
  rcases v with ⟨l⟩
  cases l with
  | nil => rfl
  | cons c cs =>
    have hne : (⟨c :: cs⟩ : String) ≠ "" := by
      intro he
      have h2 := congrArg String.data he
      simp at h2
    rw [decide_eq_true hne]
    rfl

theorem filter_map_pairs (l : List (String × String))
    (hl : ∀ kv ∈ l, ':' ∉ kv.1.data) :
    (l.map (fun kv => kv.1 ++ ": " ++ kv.2)).filter partKept
      = (l.filter (fun kv => kv.2 ≠ "")).map (fun kv => kv.1 ++ ": " ++ kv.2) := by
  induction l with
  | nil => rfl
  | cons kv t ih =>
    simp only [List.map_cons, List.filter_cons]
    rw [partKept_eq _ _ (hl kv (List.mem_cons_self _ _)), bang_isEmpty_eq_decide]
    have iht := ih (fun x hx => hl x (List.mem_cons_of_mem _ hx))
    by_cases hv : kv.2 = ""
    · simp [hv, iht]
    · simp [hv, iht]

/-- C6 counterexample: on the claim's own Fender example the query has
seven lines (six newline separators plus one), not six — all seven
fields category, brand, model, year, condition, materials, features are
non-empty, and only notes is dropped. -/
theorem claim_C6_counterexample :
    ((_build_query ⟨"electric guitar", "Fender", "Stratocaster", some "1996", "Good",
        ["alder", "maple"], ["tremolo bridge"], ""⟩).data.count '\n' + 1 = 7) ∧
    ((_build_query ⟨"electric guitar", "Fender", "Stratocaster", some "1996", "Good",
        ["alder", "maple"], ["tremolo bridge"], ""⟩).data.count '\n' + 1 ≠ 6) := by
  decide

/-- C6 (amended): `_build_query` emits one `label: value` line per field
whose rendered value is non-empty, in the fixed order category, brand,
model, year, condition, materials (comma-joined), features
(comma-joined), notes; on the Fender example the output is the
seven-line block below, materials renders as `alder, maple`, and the
empty notes field is dropped. -/
theorem claim_C6_build_query :
    (∀ d : InstrumentDescription,
      _build_query d = String.intercalate "\n" (specQueryLines d)) ∧
    _build_query ⟨"electric guitar", "Fender", "Stratocaster", some "1996", "Good",
        ["alder", "maple"], ["tremolo bridge"], ""⟩
      = "category: electric guitar\nbrand: Fender\nmodel: Stratocaster\nyear: 1996\ncondition: Good\nmaterials: alder, maple\nfeatures: tremolo bridge" ∧
    commaJoin ["alder", "maple"] = "alder, maple" ∧
    partKept "notes: " = false := by
  refine ⟨?_, by decide, by decide, by decide⟩
  intro d
  have hfm := filter_map_pairs
    [("category", d.category), ("brand", d.brand), ("model", d.model),
     ("year", match d.year with | none => "" | some y => y),
     ("condition", d.condition), ("materials", commaJoin d.materials),
     ("features", commaJoin d.features), ("notes", d.notes)]
    (by
      intro kv hkv
      simp only [List.mem_cons, List.not_mem_nil, or_false] at hkv
      rcases hkv with rfl | rfl | rfl | rfl | rfl | rfl | rfl | rfl <;> simp)
  calc _build_query d
      = String.intercalate "\n"
          ((List.map (fun kv => kv.1 ++ ": " ++ kv.2)
            [("category", d.category), ("brand", d.brand), ("model", d.model),
             ("year", match d.year with | none => "" | some y => y),
             ("condition", d.condition), ("materials", commaJoin d.materials),
             ("features", commaJoin d.features), ("notes", d.notes)]).filter partKept) := rfl
    _ = String.intercalate "\n" (specQueryLines d) := by rw [hfm]; rfl

/-! ### Claim C7 -/

theorem asStrList_map_str (l : List String) :
    asStrList (Json.arr (l.map Json.str)) = some l := by
  unfold asStrList
  induction l with
  | nil => rfl
  | cons x xs ih =>
    simp only [List.map_cons, List.mapM_cons, asStr, Option.pure_def, Option.bind_eq_bind,
      Option.bind_some]
    simp only [List.map] at ih
    rw [ih]
    rfl

theorem validate_dump (d : InstrumentDescription) :
    InstrumentDescription.validate d.dump = some d := by
  cases d with
  | mk category brand model year condition materials features notes =>
    cases year with
    | none =>
      simp [InstrumentDescription.validate, InstrumentDescription.dump, dictGet,
        strFieldD, optStrField, strListFieldD, asStr, asStrList_map_str, Bind.bind]
    | some y =>
      simp [InstrumentDescription.validate, InstrumentDescription.dump, dictGet,
        strFieldD, optStrField, strListFieldD, asStr, asStrList_map_str, Bind.bind]

/-- C7 counterexample: validating the empty JSON object leaves `year`
as `None` — the optional `year` text field does not default to the empty
string, contradicting the every-text-field part of the claim. -/
theorem claim_C7_counterexample :
    InstrumentDescription.validate (Json.obj [])
      = some ⟨"", "", "", none, "", [], [], ""⟩ ∧
    (⟨"", "", "", none, "", [], [], ""⟩ : InstrumentDescription).year ≠ some "" :=
  ⟨rfl, by decide⟩

/-- C7 (amended): validating from a JSON object with absent fields fills
every text field except `year` with the empty string and every list
field with the empty sequence (`year`, being `str | None = None`,
defaults to `None`); validate-then-dump preserves all fields, and empty
list fields dump as empty arrays, never as `null`. -/
theorem claim_C7_defaults_roundtrip :
    InstrumentDescription.validate (Json.obj [])
      = some ⟨"", "", "", none, "", [], [], ""⟩ ∧
    (∀ d : InstrumentDescription, InstrumentDescription.validate d.dump = some d) ∧
    InstrumentDescription.dump ⟨"", "", "", none, "", [], [], ""⟩
      = Json.obj [("category", .str ""), ("brand", .str ""), ("model", .str ""),
          ("year", .null), ("condition", .str ""), ("materials", .arr []),
          ("features", .arr []), ("notes", .str "")] :=
  ⟨rfl, validate_dump, rfl⟩

/-! ### Claim C2 -/

theorem stepsOf_append (a b : List Event) :
    stepsOf (a ++ b) = stepsOf a ++ stepsOf b := by
  simp [stepsOf, List.filterMap_append]

theorem stepsOf_logMap (l : List String) (s : String) :
    stepsOf (l.map fun _ => Event.log s) = [] := by
  induction l with
  | nil => rfl
  | cons x xs ih => simp [stepsOf, List.filterMap_cons]

theorem logMap_not_terminal (l : List String) (s : String) :
    ∀ x ∈ l.map (fun _ => Event.log s), x.isTerminal = false := by
  intro x hx
  rcases List.mem_map.mp hx with ⟨y, _, rfl⟩
  rfl

/-- C2: in both stream generators every execution emits exactly one
terminal `result`/`error` event, always last (`result` precisely on
success), and the `step` events form a prefix of the canonical
zero-based narration 0.start, 0.done, 1.start, 1.done, 2.start, 2.done,
3.start, 3.done — each index's `start` precedes its `done` and no later
`start` precedes the current `done`. -/
theorem claim_C2_stream_protocol :
    (∀ o : DescribeOutcome, StreamWellFormed (describe_event_stream o) o.ok) ∧
    (∀ o : EstimateOutcome, StreamWellFormed (estimate_event_stream o) o.ok) := by
  constructor
  · rintro ⟨rr, cr, qr, pr⟩
    cases rr with
    | error f =>
      refine ⟨⟨[.log "vision.upload_received", .step "vision" 0 .start],
        failEvent "VLM request failed" f, rfl, by decide, rfl,
        fun h => absurd h (by simp [DescribeOutcome.ok, Except.isOk, Except.toBool]),
        fun _ => ⟨_, rfl⟩⟩,
        ⟨[(0, .done), (1, .start), (1, .done), (2, .start), (2, .done),
          (3, .start), (3, .done)], rfl⟩⟩
    | ok u1 =>
      cases cr with
      | error f =>
        refine ⟨⟨[.log "vision.upload_received", .step "vision" 0 .start,
          .step "vision" 0 .done, .step "vision" 1 .start],
          failEvent "VLM request failed" f, rfl, by decide, rfl,
          fun h => absurd h (by simp [DescribeOutcome.ok, Except.isOk, Except.toBool]),
          fun _ => ⟨_, rfl⟩⟩,
          ⟨[(1, .done), (2, .start), (2, .done), (3, .start), (3, .done)], rfl⟩⟩
      | ok u2 =>
        cases qr with
        | error f =>
          refine ⟨⟨[.log "vision.upload_received", .step "vision" 0 .start,
            .step "vision" 0 .done, .step "vision" 1 .start,
            .step "vision" 1 .done, .log "vision.image_encoded", .log "vision.request_sent",
            .step "vision" 2 .start, .log "vision.model"],
            failEvent "VLM request failed" f, rfl, by decide, rfl,
            fun h => absurd h (by simp [DescribeOutcome.ok, Except.isOk, Except.toBool]),
            fun _ => ⟨_, rfl⟩⟩,
            ⟨[(2, .done), (3, .start), (3, .done)], rfl⟩⟩
        | ok resp =>
          rcases resp with ⟨rl, us⟩
          have hM := logMap_not_terminal rl "vision.reasoning_summary"
          cases pr with
          | error f =>
            refine ⟨⟨[.log "vision.upload_received", .step "vision" 0 .start,
              .step "vision" 0 .done, .step "vision" 1 .start,
              .step "vision" 1 .done, .log "vision.image_encoded", .log "vision.request_sent",
              .step "vision" 2 .start, .log "vision.model"] ++
              (rl.map (fun _ => Event.log "vision.reasoning_summary")) ++
              (match us with | some _ => [Event.log "vision.usage"] | none => []) ++
              [.step "vision" 2 .done, .step "vision" 3 .start],
              failEvent "VLM request failed" f, ?_, ?_, rfl,
              fun h => absurd h (by simp [DescribeOutcome.ok, Except.isOk, Except.toBool]),
              fun _ => ⟨_, rfl⟩⟩, ?_⟩
            · cases us <;> simp [describe_event_stream]
            · intro x hx
              simp only [List.append_assoc, List.mem_append] at hx
              rcases hx with hx | hx | hx | hx
              · revert x; decide
              · exact hM x hx
              · cases us with
                | none => simp at hx
                | some u => simp at hx; rw [hx]; rfl
              · revert x; decide
            · refine ⟨[(3, .done)], ?_⟩
              cases us <;>
                simp [describe_event_stream, stepsOf_append, stepsOf_logMap, stepsOf,
                  List.filterMap_cons, fullSteps, failEvent]
          | ok u4 =>
            refine ⟨⟨[.log "vision.upload_received", .step "vision" 0 .start,
              .step "vision" 0 .done, .step "vision" 1 .start,
              .step "vision" 1 .done, .log "vision.image_encoded", .log "vision.request_sent",
              .step "vision" 2 .start, .log "vision.model"] ++
              (rl.map (fun _ => Event.log "vision.reasoning_summary")) ++
              (match us with | some _ => [Event.log "vision.usage"] | none => []) ++
              [.step "vision" 2 .done, .step "vision" 3 .start,
               .step "vision" 3 .done, .log "vision.response_parsed"],
              .result "vision", ?_, ?_, rfl,
              fun _ => ⟨_, rfl⟩,
              fun h => absurd h (by simp [DescribeOutcome.ok, Except.isOk, Except.toBool])⟩, ?_⟩
            · cases us <;> simp [describe_event_stream]
            · intro x hx
              simp only [List.append_assoc, List.mem_append] at hx
              rcases hx with hx | hx | hx | hx
              · revert x; decide
              · exact hM x hx
              · cases us with
                | none => simp at hx
                | some u => simp at hx; rw [hx]; rfl
              · revert x; decide
            · refine ⟨[], ?_⟩
              cases us <;>
                simp [describe_event_stream, stepsOf_append, stepsOf_logMap, stepsOf,
                  List.filterMap_cons, fullSteps, failEvent]
  · rintro ⟨sr, qr, pr⟩
    cases sr with
    | error f =>
      refine ⟨⟨[.log "rag.query_build", .step "rag" 0 .start, .step "rag" 0 .done,
        .log "rag.retrieve_start", .step "rag" 1 .start],
        failEvent "RAG request failed" f, rfl, by decide, rfl,
        fun h => absurd h (by simp [EstimateOutcome.ok, Except.isOk, Except.toBool]),
        fun _ => ⟨_, rfl⟩⟩,
        ⟨[(1, .done), (2, .start), (2, .done), (3, .start), (3, .done)], rfl⟩⟩
    | ok u1 =>
      cases qr with
      | error f =>
        refine ⟨⟨[.log "rag.query_build", .step "rag" 0 .start, .step "rag" 0 .done,
          .log "rag.retrieve_start", .step "rag" 1 .start,
          .step "rag" 1 .done, .log "rag.retrieve_done", .log "rag.context_build",
          .step "rag" 2 .start, .step "rag" 2 .done, .log "rag.request_sent",
          .step "rag" 3 .start, .log "rag.model"],
          failEvent "RAG request failed" f, rfl, by decide, rfl,
          fun h => absurd h (by simp [EstimateOutcome.ok, Except.isOk, Except.toBool]),
          fun _ => ⟨_, rfl⟩⟩,
          ⟨[(3, .done)], rfl⟩⟩
      | ok resp =>
        rcases resp with ⟨rl, us⟩
        have hM := logMap_not_terminal rl "rag.reasoning_summary"
        cases pr with
        | error f =>
          refine ⟨⟨[.log "rag.query_build", .step "rag" 0 .start, .step "rag" 0 .done,
            .log "rag.retrieve_start", .step "rag" 1 .start,
            .step "rag" 1 .done, .log "rag.retrieve_done", .log "rag.context_build",
            .step "rag" 2 .start, .step "rag" 2 .done, .log "rag.request_sent",
            .step "rag" 3 .start, .log "rag.model"] ++
            (rl.map (fun _ => Event.log "rag.reasoning_summary")) ++
            (match us with | some _ => [Event.log "rag.usage"] | none => []),
            failEvent "RAG request failed" f, ?_, ?_, rfl,
            fun h => absurd h (by simp [EstimateOutcome.ok, Except.isOk, Except.toBool]),
            fun _ => ⟨_, rfl⟩⟩, ?_⟩
          · cases us <;> simp [estimate_event_stream]
          · intro x hx
            simp only [List.append_assoc, List.mem_append] at hx
            rcases hx with hx | hx | hx
            · revert x; decide
            · exact hM x hx
            · cases us with
              | none => simp at hx
              | some u => simp at hx; rw [hx]; rfl
          · refine ⟨[(3, .done)], ?_⟩
            cases us <;>
              simp [estimate_event_stream, stepsOf_append, stepsOf_logMap, stepsOf,
                List.filterMap_cons, fullSteps, failEvent]
        | ok u3 =>
          refine ⟨⟨[.log "rag.query_build", .step "rag" 0 .start, .step "rag" 0 .done,
            .log "rag.retrieve_start", .step "rag" 1 .start,
            .step "rag" 1 .done, .log "rag.retrieve_done", .log "rag.context_build",
            .step "rag" 2 .start, .step "rag" 2 .done, .log "rag.request_sent",
            .step "rag" 3 .start, .log "rag.model"] ++
            (rl.map (fun _ => Event.log "rag.reasoning_summary")) ++
            (match us with | some _ => [Event.log "rag.usage"] | none => []) ++
            [.step "rag" 3 .done],
            .result "rag", ?_, ?_, rfl,
            fun _ => ⟨_, rfl⟩,
            fun h => absurd h (by simp [EstimateOutcome.ok, Except.isOk, Except.toBool])⟩, ?_⟩
          · cases us <;> simp [estimate_event_stream]
          · intro x hx
            simp only [List.append_assoc, List.mem_append] at hx
            rcases hx with hx | hx | hx | hx
            · revert x; decide
            · exact hM x hx
            · cases us with
              | none => simp at hx
              | some u => simp at hx; rw [hx]; rfl
            · revert x; decide
          · refine ⟨[], ?_⟩
            cases us <;>
              simp [estimate_event_stream, stepsOf_append, stepsOf_logMap, stepsOf,
                List.filterMap_cons, fullSteps, failEvent]

/-! ### Claim C8 -/

theorem braceIdx_none_iff (cs : List Char) : braceIdx cs = none ↔ '\x7b' ∉ cs := by
  induction cs with
  | nil => simp [braceIdx]
  | cons c cs ih =>
    by_cases hc : c = '\x7b'
    · subst hc; simp [braceIdx]
    · have hs : '\x7b' ≠ c := Ne.symm hc
      simp [braceIdx, hc, hs, Option.map_eq_none', ih]

theorem span_inv (cs : List Char) (a b : Nat)
    (h : _find_json_object_span cs = some (a, b)) :
    braceIdx cs = some a ∧ scanBrace 0 false false a (cs.drop a) = some b := by
  unfold _find_json_object_span at h
  rcases hbi : braceIdx cs with _ | a0
  · rw [hbi] at h; cases h
  · simp only [hbi] at h
    rcases hsc : scanBrace 0 false false a0 (cs.drop a0) with _ | e0
    · simp [hsc] at h
    · simp only [hsc, Option.map_some', Option.some.injEq, Prod.mk.injEq] at h
      obtain ⟨rfl, rfl⟩ := h
      exact ⟨rfl, hsc⟩

theorem span_none_of_scan_none (cs : List Char) (a0 : Nat)
    (hbi : braceIdx cs = some a0)
    (hsc : scanBrace 0 false false a0 (cs.drop a0) = none) :
    _find_json_object_span cs = none := by
  unfold _find_json_object_span
  simp only [hbi, hsc]
  rfl

theorem span_none_of_braceIdx_none (cs : List Char) (hbi : braceIdx cs = none) :
    _find_json_object_span cs = none := by
  unfold _find_json_object_span
  rw [hbi]

theorem extract_fallthrough (t : String) (h0 : pyStripL t.data ≠ [])
    (hs : ¬ StrictObjParse t) :
    extract_json_object t =
      match _find_json_object_span (pyStripL t.data) with
      | none => .error "No JSON object found in response"
      | some (s, e) =>
        match json_loads (String.mk (((pyStripL t.data).drop s).take (e - s))) with
        | some j => .ok j
        | none => .error "Expecting value" := by
  simp only [extract_json_object, strMkData]
  rw [if_neg (by simpa [List.isEmpty_iff] using h0)]
  rcases hjl : json_loads (String.mk (pyStripL t.data)) with _ | j
  · rfl
  · cases j with
    | obj kvs => exact absurd ⟨kvs, hjl⟩ hs
    | null => rfl
    | bool b => rfl
    | num q => rfl
    | str s => rfl
    | arr xs => rfl

/-- C8: `extract_json_object` fails exactly when the input is empty or
whitespace-only, or (the whole text not strictly parsing as an object)
there is no opening brace, or the depth-tracked scan from the first
brace never returns depth to zero, or the located brace-delimited slice
is not valid JSON; on every other input it succeeds. -/
theorem claim_C8_failure_iff (t : String) :
    (∃ m, extract_json_object t = .error m) ↔
    (pyStripL t.data = [] ∨
      (¬ StrictObjParse t ∧
        ('\x7b' ∉ pyStripL t.data ∨
         (∃ a, braceIdx (pyStripL t.data) = some a ∧
            scanBrace 0 false false a ((pyStripL t.data).drop a) = none) ∨
         (∃ a b, _find_json_object_span (pyStripL t.data) = some (a, b) ∧
            json_loads (String.mk (((pyStripL t.data).drop a).take (b - a))) = none)))) := by
  by_cases h0 : pyStripL t.data = []
  · refine iff_of_true ⟨"Empty response", ?_⟩ (Or.inl h0)
    simp [extract_json_object, strMkData, h0]
  · by_cases hs : StrictObjParse t
    · obtain ⟨kvs, hkvs⟩ := hs
      refine iff_of_false ?_ ?_
      · rintro ⟨m, hm⟩
        rw [extract_json_object] at hm
        simp only [strMkData] at hm
        rw [if_neg (by simpa [List.isEmpty_iff] using h0), hkvs] at hm
        cases hm
      · rintro (h0' | ⟨hns, _⟩)
        · exact h0 h0'
        · exact hns ⟨kvs, hkvs⟩
    · have hft := extract_fallthrough t h0 hs
      rcases hspan : _find_json_object_span (pyStripL t.data) with _ | ⟨a, b⟩
      · refine iff_of_true ⟨"No JSON object found in response", by rw [hft, hspan]⟩
          (Or.inr ⟨hs, ?_⟩)
        unfold _find_json_object_span at hspan
        rcases hbi : braceIdx (pyStripL t.data) with _ | a0
        · exact Or.inl ((braceIdx_none_iff _).mp hbi)
        · simp only [hbi] at hspan
          rcases hsc : scanBrace 0 false false a0 ((pyStripL t.data).drop a0) with _ | e0
          · exact Or.inr (Or.inl ⟨a0, rfl, hsc⟩)
          · exact absurd (by simp only [hsc, Option.map_some'] at hspan; exact hspan) (by simp)
      · rcases hload : json_loads
            (String.mk (((pyStripL t.data).drop a).take (b - a))) with _ | j
        · refine iff_of_true ⟨"Expecting value", ?_⟩
            (Or.inr ⟨hs, Or.inr (Or.inr ⟨a, b, rfl, hload⟩)⟩)
          rw [hft]
          simp only [hspan, hload]
        · obtain ⟨hbi, hsc⟩ := span_inv _ _ _ hspan
          refine iff_of_false ?_ ?_
          · rintro ⟨m, hm⟩
            rw [hft] at hm
            simp only [hspan, hload] at hm
            cases hm
          · rintro (h0' | ⟨hns, hd | ⟨a0, hbi0, hsc0⟩ | ⟨a0, b0, hspan0, hload0⟩⟩)
            · exact h0 h0'
            · rw [(braceIdx_none_iff _).mpr hd] at hbi
              cases hbi
            · rw [hbi0] at hbi
              injection hbi with haa
              subst haa
              rw [hsc0] at hsc
              cases hsc
            · simp only [Option.some.injEq, Prod.mk.injEq] at hspan0
              obtain ⟨rfl, rfl⟩ := hspan0
              rw [hload0] at hload
              cases hload

/-! ### Claim C10 -/

theorem b64_table : ∀ v : Fin 64, b64Val (b64Char v.val) = some v.val ∧ b64Char v.val ≠ '=' := by
  decide

theorem b64_table_nat (v : Nat) (h : v < 64) :
    b64Val (b64Char v) = some v ∧ b64Char v ≠ '=' :=
  b64_table ⟨v, h⟩

theorem b64_roundtrip : ∀ (bytes : List Nat), (∀ x ∈ bytes, x < 256) →
    b64DecodeChunks (b64EncodeChunks bytes) = some bytes
  | [], _ => rfl
  | [a], hb => by
    have ha : a < 256 := hb a (by simp)
    have h1 := (b64_table_nat (a / 4) (by omega)).1
    have h2 := (b64_table_nat (a % 4 * 16) (by omega)).1
    simp only [b64EncodeChunks, b64DecodeChunks, h1, h2]
    have e1 : a % 4 * 16 / 16 = a % 4 := Nat.mul_div_cancel _ (by norm_num)
    simp [e1]
    omega
  | [a, b], hb => by
    have ha : a < 256 := hb a (by simp)
    have hbb : b < 256 := hb b (by simp)
    have h1 := (b64_table_nat (a / 4) (by omega)).1
    have h2 := (b64_table_nat (a % 4 * 16 + b / 16) (by omega)).1
    have h3 := (b64_table_nat (b % 16 * 4) (by omega)).1
    have h3n := (b64_table_nat (b % 16 * 4) (by omega)).2
    simp only [b64EncodeChunks, b64DecodeChunks, h1, h2, h3]
    simp [h3n]
    constructor <;> omega
  | a :: b :: c :: rest, hb => by
    have ha : a < 256 := hb a (by simp)
    have hbb : b < 256 := hb b (by simp)
    have hc : c < 256 := hb c (by simp)
    have h1 := (b64_table_nat (a / 4) (by omega)).1
    have h2 := (b64_table_nat (a % 4 * 16 + b / 16) (by omega)).1
    have h3 := (b64_table_nat (b % 16 * 4 + c / 64) (by omega)).1
    have h3n := (b64_table_nat (b % 16 * 4 + c / 64) (by omega)).2
    have h4 := (b64_table_nat (c % 64) (by omega)).1
    have h4n := (b64_table_nat (c % 64) (by omega)).2
    have ih := b64_roundtrip rest (fun x hx => hb x (by simp [hx]))
    simp only [b64EncodeChunks, b64DecodeChunks, h1, h2, h3, h4, ih]
    simp [h3n, h4n]
    refine ⟨by omega, by omega, by omega⟩

/-- C10: for every byte sequence and MIME type, `build_image_data_url`
returns exactly `data:<mime>;base64,<payload>` with a payload whose
base64 decoding recovers the original bytes. -/
theorem claim_C10_data_url (bytes : List Nat) (mime : String)
    (hb : ∀ x ∈ bytes, x < 256) :
    ∃ payload : String,
      build_image_data_url bytes mime = "data:" ++ mime ++ ";base64," ++ payload ∧
      b64decode payload = some bytes :=
  ⟨b64encode bytes, rfl, b64_roundtrip bytes hb⟩

/-- Witness for C10 at the bytes `[0, 255, 10]` and MIME `image/png`. -/
theorem claim_C10_witness :
    ∃ payload : String,
      build_image_data_url [0, 255, 10] "image/png"
        = "data:" ++ "image/png" ++ ";base64," ++ payload ∧
      b64decode payload = some [0, 255, 10] :=
  claim_C10_data_url [0, 255, 10] "image/png" (by decide)
